import Mathlib

/-!
Verification of the block-production subsystem of TheHolyRogerCoin
(src/miner.cpp): the proof-of-work nonce searcher `ScanScryptHash`,
the submission path `ProcessBlockFound`, and the block-template
assembler (`BlockAssembler`).  All definitions are shallow embeddings
of the C++ source; external collaborators (the scrypt hash, the
mempool data structure, consensus helpers) are modelled as explicit
parameters or data, as described in each doc comment.
-/

/-! ### Constants (consensus/consensus.h, not under src/)

Modelled from the spec: `WITNESS_SCALE_FACTOR` is the weight scale
(witness bytes count 1, non-witness bytes count 4); `MAX_BLOCK_WEIGHT`
and `MAX_BLOCK_SIGOPS_COST` are the consensus block limits used by
`BlockAssembler` and `TestPackage`. -/

def WITNESS_SCALE_FACTOR : Nat := 4

def MAX_BLOCK_WEIGHT : Nat := 4000000

def MAX_BLOCK_SIGOPS_COST : Nat := 80000

/-! ### Block header

The 80-byte header `CBlockHeader`.  Hash fields are modelled as the
256-bit numbers they encode. -/

structure CBlockHeader where
  nVersion : Int
  hashPrevBlock : Nat
  hashMerkleRoot : Nat
  nTime : Nat
  nBits : Nat
  nNonce : Nat
  deriving DecidableEq, Repr

/-- Byte `j` (little-endian) of a 256-bit value stored as a natural
number, as read through the `uint8_t*` view of a `uint256` in the
source. -/
def byteOf (t : Nat) (j : Nat) : Nat := t / 256 ^ j % 256

/-- The scan of `ScanScryptHash` that finds `firstLEZeroByte`:
starting from `f` it walks down while the byte below is zero, stopping
at 1.  The source runs it from 32. -/
def firstLEZeroByteFrom (t : Nat) : Nat → Nat
  | 0 => 0
  | 1 => 1
  | f + 2 => if byteOf t (f + 1) = 0 then firstLEZeroByteFrom t (f + 1) else f + 2

/-- `firstLEZeroByte` as computed at the top of `ScanScryptHash`
(src/miner.cpp lines 535-538): one past the highest nonzero byte of
the target, and 1 when the target is zero. -/
def firstLEZeroByte (t : Nat) : Nat := firstLEZeroByteFrom t 32

/-- The candidate test of `ScanScryptHash` (src/miner.cpp lines
551-553): every byte of the hash at positions `f ≤ j < 32` is zero. -/
def zeroBytesFrom (h : Nat) (f : Nat) : Bool :=
  (List.range' f (32 - f)).all (fun j => byteOf h j == 0)

/-- Result of one call to `ScanScryptHash`: the returned boolean, the
by-reference nonce, the hash buffer, and how many hashes this call
computed (the increments applied to `hashesScanned`). -/
structure ScanResult where
  found : Bool
  nonce : Nat
  hash : Nat
  scanned : Nat
  deriving DecidableEq, Repr

/-- The nonce loop of `ScanScryptHash` (src/miner.cpp lines 542-564).
`scrypt` is the scrypt_1024_1_1_256 hash of the 80-byte header,
modelled from the spec as an arbitrary function (crypto/scrypt is not
under src/).  Each iteration writes the nonce into the header, hashes,
increments the counter and the nonce (a uint32, hence mod 2^32),
returns success when the candidate test passes, and returns failure
when the incremented nonce is a multiple of 4096.  `fuel` bounds the
recursion; `none` means the fuel ran out before the loop returned. -/
def scanLoop (scrypt : CBlockHeader → Nat) (hdr : CBlockHeader) (f : Nat) :
    Nat → Nat → Nat → Option ScanResult
  | 0, _, _ => none
  | fuel + 1, nonce, scanned =>
    let h := scrypt { hdr with nNonce := nonce }
    let scanned' := scanned + 1
    let nonce' := (nonce + 1) % 2 ^ 32
    if zeroBytesFrom h f then some ⟨true, nonce', h, scanned'⟩
    else if nonce' % 4096 = 0 then some ⟨false, nonce', h, scanned'⟩
    else scanLoop scrypt hdr f fuel nonce' scanned'

/-- `ScanScryptHash` (src/miner.cpp lines 531-565).  `solution` is the
target decoded from compact bits; `hashBuf` is the value held in the
caller's hash buffer at entry (`*phash`, untouched by the early
return).  When `firstLEZeroByte` is 32 (the target's top byte is
nonzero) it returns success immediately with nothing scanned;
otherwise it runs the nonce loop, whose 4096-step exit guarantees the
fuel 4096 is never exhausted. -/
def ScanScryptHash (scrypt : CBlockHeader → Nat) (hdr : CBlockHeader)
    (nNonce : Nat) (solution : Nat) (hashBuf : Nat) : Option ScanResult :=
  if firstLEZeroByte solution = 32 then some ⟨true, nNonce, hashBuf, 0⟩
  else scanLoop scrypt hdr (firstLEZeroByte solution) 4096 nNonce 0

/-- `ProcessBlockFound` (src/miner.cpp lines 567-584).  The block is
represented by its header's previous-block hash; `tipHash` is the
current chain tip's hash read under `cs_main`; `processNewBlock` is
the external `ProcessNewBlock` verdict for this block.  Returns the
function's boolean result paired with whether `ProcessNewBlock` was
invoked. -/
def ProcessBlockFound (prevBlockHash : Nat) (tipHash : Nat)
    (processNewBlock : Bool) : Bool × Bool :=
  if prevBlockHash ≠ tipHash then (false, false)
  else (processNewBlock, true)

/-! ### Lemmas about the nonce loop -/

theorem firstLEZeroByteFrom_le (t : Nat) : ∀ f, firstLEZeroByteFrom t f ≤ f
  | 0 => Nat.le_refl _
  | 1 => Nat.le_refl _
  | f + 2 => by
    rw [firstLEZeroByteFrom]
    split
    · exact Nat.le_trans (firstLEZeroByteFrom_le t (f + 1)) (by omega)
    · exact Nat.le_refl _

theorem firstLEZeroByte_le (t : Nat) : firstLEZeroByte t ≤ 32 :=
  firstLEZeroByteFrom_le t 32

theorem zeroBytesFrom_eq_true_iff (h f : Nat) (hf : f ≤ 32) :
    zeroBytesFrom h f = true ↔ ∀ j, f ≤ j → j < 32 → byteOf h j = 0 := by
  unfold zeroBytesFrom
  rw [List.all_eq_true]
  constructor
  · intro hall j hj1 hj2
    have hm : j ∈ List.range' f (32 - f) := by
      rw [List.mem_range'_1]
      omega
    simpa using hall j hm
  · intro hall j hm
    rw [List.mem_range'_1] at hm
    simpa using hall j hm.1 (by omega)

/-- Core bound on the nonce loop: given fuel at least the distance to
the next multiple of 4096, the loop returns, scans at most that many
hashes, stops at a nonce multiple of 4096 when unsuccessful, and on a
candidate success the reported hash passes the zero-byte test and is
the hash of the header at the nonce just before the reported one. -/
theorem scanLoop_spec (scrypt : CBlockHeader → Nat) (hdr : CBlockHeader) (f : Nat) :
    ∀ fuel nonce scanned, 4096 - nonce % 4096 ≤ fuel →
    ∃ r, scanLoop scrypt hdr f fuel nonce scanned = some r ∧
      r.scanned ≤ scanned + (4096 - nonce % 4096) ∧
      (r.found = false → r.nonce % 4096 = 0) ∧
      (r.found = true → zeroBytesFrom r.hash f = true ∧
        (nonce < 2 ^ 32 →
          r.nonce < 2 ^ 32 ∧
          r.hash = scrypt { hdr with nNonce := (r.nonce + 2 ^ 32 - 1) % 2 ^ 32 }))
  | 0, nonce, scanned => by
    intro hfuel
    have : nonce % 4096 < 4096 := Nat.mod_lt _ (by omega)
    omega
  | fuel + 1, nonce, scanned => by
    intro hfuel
    rw [scanLoop]
    split
    · next hz =>
      refine ⟨_, rfl, ?_, by simp, ?_⟩
      · have : nonce % 4096 < 4096 := Nat.mod_lt _ (by omega)
        simp only
        omega
      · intro _
        refine ⟨hz, fun hlt => ⟨Nat.mod_lt _ (by omega), ?_⟩⟩
        simp only
        have : ((nonce + 1) % 2 ^ 32 + 2 ^ 32 - 1) % 2 ^ 32 = nonce := by omega
        rw [this]
    · next hz =>
      split
      · next hmod =>
        refine ⟨_, rfl, ?_, fun _ => hmod, by simp⟩
        have : nonce % 4096 < 4096 := Nat.mod_lt _ (by omega)
        simp only
        omega
      · next hmod =>
        have hdvd : (4096 : Nat) ∣ 2 ^ 32 := ⟨2 ^ 20, by norm_num⟩
        have hm1 : (nonce + 1) % 2 ^ 32 % 4096 = (nonce + 1) % 4096 :=
          Nat.mod_mod_of_dvd _ hdvd
        have hne : (nonce + 1) % 4096 ≠ 0 := by
          intro h; exact hmod (by rw [hm1, h])
        have hrec : 4096 - (nonce + 1) % 2 ^ 32 % 4096 ≤ fuel := by
          rw [hm1]; omega
        obtain ⟨r, hr, hs, hf0, hf1⟩ :=
          scanLoop_spec scrypt hdr f fuel ((nonce + 1) % 2 ^ 32) (scanned + 1) hrec
        refine ⟨r, hr, ?_, hf0, ?_⟩
        · rw [hm1] at hs
          omega
        · intro ht
          obtain ⟨hzb, hrest⟩ := hf1 ht
          exact ⟨hzb, fun _ => hrest (Nat.mod_lt _ (by omega))⟩

/-- C9.  Every call to `ScanScryptHash` terminates: it returns a result
(the loop fuel of 4096 is never exhausted), it computes at most 4096
hashes before returning, and when it returns without success the
incremented nonce has reached a multiple of 4096 (`nonce & 0xFFF == 0`,
src/miner.cpp lines 562-563). -/
theorem scanScryptHash_terminates (scrypt : CBlockHeader → Nat) (hdr : CBlockHeader)
    (nNonce solution hashBuf : Nat) :
    ∃ r, ScanScryptHash scrypt hdr nNonce solution hashBuf = some r ∧
      r.scanned ≤ 4096 ∧ (r.found = false → r.nonce % 4096 = 0) := by
  unfold ScanScryptHash
  split
  · exact ⟨_, rfl, by simp, by simp⟩
  · have hk : nNonce % 4096 < 4096 := Nat.mod_lt _ (by omega)
    obtain ⟨r, hr, hs, hf0, _⟩ :=
      scanLoop_spec scrypt hdr (firstLEZeroByte solution) 4096 nNonce 0 (by omega)
    exact ⟨r, hr, by omega, hf0⟩

/-! ### Concrete inputs used to exercise the searcher -/

/-- A fixed header used as concrete input to `ScanScryptHash`. -/
def hdr0 : CBlockHeader := ⟨1, 0, 0, 0, 0, 0⟩

/-- A hash function that is constantly 2^241: its byte 30 is 2 and all
bytes above are zero. -/
def constHash241 : CBlockHeader → Nat := fun _ => 2 ^ 241

/-- A hash function that is constantly 256: its byte 1 is 1, so the
candidate test fails whenever `firstLEZeroByte ≤ 1`. -/
def constHash256 : CBlockHeader → Nat := fun _ => 256

/-- C3 counterexample.  With target 2^240 (top byte zero, byte 30
equal to 1, so `firstLEZeroByte = 31`) and a hash whose value is
always 2^241 (byte 31 zero, hence a candidate), `ScanScryptHash`
returns success at the very first nonce, yet the hash of the header at
the reported nonce — indeed at every nonce — is 2^241, which is
strictly greater than the target.  Success of the searcher therefore
does not imply that the scrypt hash at the reported nonce is at most
the target. -/
theorem scanScryptHash_success_not_below_target_cex :
    ScanScryptHash constHash241 hdr0 7 (2 ^ 240) 0 =
      some ⟨true, 8, 2 ^ 241, 1⟩ ∧
    constHash241 { hdr0 with nNonce := 8 } = 2 ^ 241 ∧
    constHash241 { hdr0 with nNonce := 7 } = 2 ^ 241 ∧
    ¬ (2 ^ 241 ≤ 2 ^ 240) := by
  refine ⟨by decide, rfl, rfl, by norm_num⟩

/-- C3 amended.  When `ScanScryptHash` returns success out of its
candidate loop (that is, the target's top byte is zero so the early
return is not taken), every byte of the reported hash at positions at
or above `firstLEZeroByte target` is zero — a necessary condition for
`hash ≤ target` which the caller `CoinMiner` then verifies precisely —
and the reported hash is the scrypt hash of the header at the nonce
one below the reported (incremented) one. -/
theorem scanScryptHash_candidate_zero_bytes (scrypt : CBlockHeader → Nat)
    (hdr : CBlockHeader) (nNonce solution hashBuf : Nat) (r : ScanResult)
    (hfl : firstLEZeroByte solution ≠ 32)
    (hn : nNonce < 2 ^ 32)
    (hret : ScanScryptHash scrypt hdr nNonce solution hashBuf = some r)
    (hfound : r.found = true) :
    (∀ j, firstLEZeroByte solution ≤ j → j < 32 → byteOf r.hash j = 0) ∧
    r.nonce < 2 ^ 32 ∧
    r.hash = scrypt { hdr with nNonce := (r.nonce + 2 ^ 32 - 1) % 2 ^ 32 } := by
  unfold ScanScryptHash at hret
  rw [if_neg hfl] at hret
  have hk : nNonce % 4096 < 4096 := Nat.mod_lt _ (by omega)
  obtain ⟨r', hr', _, _, hf1⟩ :=
    scanLoop_spec scrypt hdr (firstLEZeroByte solution) 4096 nNonce 0 (by omega)
  rw [hr'] at hret
  obtain rfl : r' = r := by injection hret
  obtain ⟨hzb, hrest⟩ := hf1 hfound
  obtain ⟨hlt, hh⟩ := hrest hn
  exact ⟨(zeroBytesFrom_eq_true_iff _ _ (firstLEZeroByte_le solution)).mp hzb, hlt, hh⟩

/-- C3 amended, witness: a concrete candidate success where all bytes
of the reported hash above `firstLEZeroByte` are zero and the hash is
the one computed at the pre-increment nonce. -/
theorem scanScryptHash_candidate_zero_bytes_witness :
    firstLEZeroByte (2 ^ 240) ≠ 32 ∧ (7 : Nat) < 2 ^ 32 ∧
    ScanScryptHash constHash241 hdr0 7 (2 ^ 240) 0 = some ⟨true, 8, 2 ^ 241, 1⟩ ∧
    (⟨true, 8, 2 ^ 241, 1⟩ : ScanResult).found = true ∧
    ((∀ j, firstLEZeroByte (2 ^ 240) ≤ j → j < 32 →
        byteOf (⟨true, 8, 2 ^ 241, 1⟩ : ScanResult).hash j = 0) ∧
      (⟨true, 8, 2 ^ 241, 1⟩ : ScanResult).nonce < 2 ^ 32 ∧
      (⟨true, 8, 2 ^ 241, 1⟩ : ScanResult).hash =
        constHash241 { hdr0 with
          nNonce := ((⟨true, 8, 2 ^ 241, 1⟩ : ScanResult).nonce + 2 ^ 32 - 1) % 2 ^ 32 }) :=
  ⟨by decide, by decide, by decide, rfl,
    scanScryptHash_candidate_zero_bytes constHash241 hdr0 7 (2 ^ 240) 0 _
      (by decide) (by decide) (by decide) rfl⟩

/-- C4 counterexample.  With an all-zero target, `ScanScryptHash` does
not return immediately with success: `firstLEZeroByte 0 = 1`, not 32,
so the hash loop runs (here one hash is computed, the candidate test
fails because byte 1 of the hash is nonzero, and the call returns
failure at the 4096 boundary).  The claim said success with no hash
computations. -/
theorem scanScryptHash_zero_target_cex :
    ScanScryptHash constHash256 hdr0 4095 0 0 = some ⟨false, 4096, 256, 1⟩ ∧
    (⟨false, 4096, 256, 1⟩ : ScanResult).found ≠ true ∧
    (⟨false, 4096, 256, 1⟩ : ScanResult).scanned ≠ 0 ∧
    firstLEZeroByte 0 = 1 := by
  refine ⟨by decide, by decide, by decide, by decide⟩

/-- C4 amended.  The immediate success return of `ScanScryptHash`
(src/miner.cpp line 540) fires exactly when the target's most
significant byte (byte 31, little-endian) is nonzero — "nothing to
look for", since then no hash byte is constrained: the call returns
success at once with the nonce and hash buffer untouched and no hash
computed. -/
theorem scanScryptHash_top_byte_early_return (scrypt : CBlockHeader → Nat)
    (hdr : CBlockHeader) (nNonce solution hashBuf : Nat)
    (h31 : byteOf solution 31 ≠ 0) :
    ScanScryptHash scrypt hdr nNonce solution hashBuf =
      some ⟨true, nNonce, hashBuf, 0⟩ := by
  have hfl : firstLEZeroByte solution = 32 := by
    unfold firstLEZeroByte firstLEZeroByteFrom
    rw [if_neg h31]
  unfold ScanScryptHash
  rw [if_pos hfl]

/-- C4 amended, witness: the target 2^248 has top byte 1, and the call
returns success immediately with nothing scanned. -/
theorem scanScryptHash_top_byte_early_return_witness :
    byteOf (2 ^ 248) 31 ≠ 0 ∧
    ScanScryptHash constHash256 hdr0 123 (2 ^ 248) 77 = some ⟨true, 123, 77, 0⟩ :=
  ⟨by decide, scanScryptHash_top_byte_early_return constHash256 hdr0 123 (2 ^ 248) 77
    (by decide)⟩

/-- C7.  A stale solution — one whose previous-block hash differs from
the chain tip's hash at submission time — makes `ProcessBlockFound`
return an error without invoking `ProcessNewBlock`, and conversely
`ProcessNewBlock` is only reached for a non-stale block
(src/miner.cpp lines 573-581). -/
theorem processBlockFound_stale (prevBlockHash tipHash : Nat)
    (processNewBlock : Bool) :
    (prevBlockHash ≠ tipHash →
      ProcessBlockFound prevBlockHash tipHash processNewBlock = (false, false)) ∧
    ((ProcessBlockFound prevBlockHash tipHash processNewBlock).2 = true →
      prevBlockHash = tipHash) := by
  constructor
  · intro hne
    unfold ProcessBlockFound
    rw [if_pos hne]
  · intro hcall
    by_contra hne
    unfold ProcessBlockFound at hcall
    rw [if_pos hne] at hcall
    simp at hcall

/-- C7 witness: with previous-block hash 1 and tip hash 2 the stale
path returns the error pair and never calls `ProcessNewBlock`. -/
theorem processBlockFound_stale_witness :
    ProcessBlockFound 1 2 true = (false, false) :=
  (processBlockFound_stale 1 2 true).1 (by decide)

/-! ### Mempool model

A mempool snapshot.  Entries are identified by indices `0 .. n-1`
(standing for txids; the identity also serves as the hash used for tie
breaking in the source's comparators).  `attr` gives each entry's
observable attributes (`CTxMemPoolEntry` getters); `anc` gives its
in-mempool ancestors, self excluded, as returned by the unlimited
`CalculateMemPoolAncestors` (txmempool.cpp, not under src/, modelled
from the spec as the ancestor enumeration).  `IsFinalTx` depends only
on the per-assembly `nHeight`/`nLockTimeCutoff`, so its verdict is
folded into the per-entry boolean `isFinalTx`. -/

structure MemEntry where
  nTxSize : Nat
  nTxWeight : Nat
  nFee : Int
  nModifiedFee : Int
  nSigOpCost : Nat
  nSizeWithAncestors : Nat
  nModFeesWithAncestors : Int
  nSigOpCostWithAncestors : Nat
  nCountWithAncestors : Nat
  hasWitness : Bool
  isFinalTx : Bool
  deriving DecidableEq, Repr

structure MemPool where
  n : Nat
  attr : Nat → MemEntry
  anc : Nat → List Nat

/-- Sum of an attribute over a list of entry ids. -/
def sumBy {α : Type} [AddCommMonoid α] (p : MemPool) (f : MemEntry → α)
    (l : List Nat) : α :=
  (l.map (fun a => f (p.attr a))).sum

/-- Well-formedness of a mempool snapshot: the ancestor relation is a
(strict) dependency order confined to the pool, and the cached
ancestor aggregates agree with it — exactly the coherence the mempool
maintains for `CTxMemPoolEntry` (spec section 3).  The weight bound
expresses `GetTxSize() = GetVirtualTransactionSize(weight, sigops)`,
which rounds weight up by the scale factor 4. -/
structure MemPool.WF (p : MemPool) : Prop where
  ancLt : ∀ d, d < p.n → ∀ a ∈ p.anc d, a < p.n
  ancNodup : ∀ d, d < p.n → (p.anc d).Nodup
  ancIrrefl : ∀ d, d < p.n → d ∉ p.anc d
  ancTrans : ∀ c, c < p.n → ∀ b ∈ p.anc c, ∀ a ∈ p.anc b, a ∈ p.anc c
  sizeAgg : ∀ d, d < p.n →
    (p.attr d).nSizeWithAncestors = (p.attr d).nTxSize + sumBy p MemEntry.nTxSize (p.anc d)
  feesAgg : ∀ d, d < p.n →
    (p.attr d).nModFeesWithAncestors =
      (p.attr d).nModifiedFee + sumBy p MemEntry.nModifiedFee (p.anc d)
  sigAgg : ∀ d, d < p.n →
    (p.attr d).nSigOpCostWithAncestors =
      (p.attr d).nSigOpCost + sumBy p MemEntry.nSigOpCost (p.anc d)
  countAgg : ∀ d, d < p.n → (p.attr d).nCountWithAncestors = 1 + (p.anc d).length
  weightLe : ∀ d, d < p.n → (p.attr d).nTxWeight ≤ 4 * (p.attr d).nTxSize

theorem MemPool.wf_iff (p : MemPool) : p.WF ↔
    ((∀ d, d < p.n → ∀ a ∈ p.anc d, a < p.n) ∧
     (∀ d, d < p.n → (p.anc d).Nodup) ∧
     (∀ d, d < p.n → d ∉ p.anc d) ∧
     (∀ c, c < p.n → ∀ b ∈ p.anc c, ∀ a ∈ p.anc b, a ∈ p.anc c) ∧
     (∀ d, d < p.n →
       (p.attr d).nSizeWithAncestors =
         (p.attr d).nTxSize + sumBy p MemEntry.nTxSize (p.anc d)) ∧
     (∀ d, d < p.n →
       (p.attr d).nModFeesWithAncestors =
         (p.attr d).nModifiedFee + sumBy p MemEntry.nModifiedFee (p.anc d)) ∧
     (∀ d, d < p.n →
       (p.attr d).nSigOpCostWithAncestors =
         (p.attr d).nSigOpCost + sumBy p MemEntry.nSigOpCost (p.anc d)) ∧
     (∀ d, d < p.n → (p.attr d).nCountWithAncestors = 1 + (p.anc d).length) ∧
     (∀ d, d < p.n → (p.attr d).nTxWeight ≤ 4 * (p.attr d).nTxSize)) :=
  ⟨fun w => ⟨w.ancLt, w.ancNodup, w.ancIrrefl, w.ancTrans, w.sizeAgg, w.feesAgg,
      w.sigAgg, w.countAgg, w.weightLe⟩,
   fun h => ⟨h.1, h.2.1, h.2.2.1, h.2.2.2.1, h.2.2.2.2.1, h.2.2.2.2.2.1,
      h.2.2.2.2.2.2.1, h.2.2.2.2.2.2.2.1, h.2.2.2.2.2.2.2.2⟩⟩

/-- The descendant enumeration `CalculateDescendants` (txmempool.cpp,
not under src/).  Modelled from the spec: the set of entries that have
`i` among their ancestors, plus `i` itself (the source includes the
entry itself; callers always skip it through the `alreadyAdded`
check). -/
def descOf (p : MemPool) (i : Nat) : List Nat :=
  (List.range p.n).filter (fun d => decide (d = i ∨ i ∈ p.anc d))

/-! ### The modified-entry overlay (`mapModifiedTx`)

`CTxMemPoolModifiedEntry` (miner.h, not under src/; spec section 3
"Modified Entry").  The map is an association list from entry id to
the overlay aggregates; aggregates are `Int` because the source keeps
them in 64-bit arithmetic and decrements them. -/

structure ModEntry where
  nSizeWithAncestors : Int
  nModFeesWithAncestors : Int
  nSigOpCostWithAncestors : Int
  deriving DecidableEq, Repr

abbrev ModMap := List (Nat × ModEntry)

/-- A fresh `CTxMemPoolModifiedEntry(iter)`: overlay aggregates
initialised from the entry's cached ancestor aggregates. -/
def freshModEntry (p : MemPool) (d : Nat) : ModEntry :=
  ⟨((p.attr d).nSizeWithAncestors : Int), (p.attr d).nModFeesWithAncestors,
    ((p.attr d).nSigOpCostWithAncestors : Int)⟩

/-- Decrement of overlay aggregates by one entry's individual
contribution (`update_for_parent_inclusion`, miner.h; the explicit
`-=` statements of src/miner.cpp lines 269-271). -/
def ModEntry.sub (m : ModEntry) (e : MemEntry) : ModEntry :=
  ⟨m.nSizeWithAncestors - e.nTxSize, m.nModFeesWithAncestors - e.nModifiedFee,
    m.nSigOpCostWithAncestors - e.nSigOpCost⟩

def mapFind (d : Nat) : ModMap → Option ModEntry
  | [] => none
  | e :: t => if e.1 = d then some e.2 else mapFind d t

def mapErase (d : Nat) (m : ModMap) : ModMap :=
  m.filter (fun e => decide (e.1 ≠ d))

def mapSub (d : Nat) (x : MemEntry) (m : ModMap) : ModMap :=
  m.map (fun e => if e.1 = d then (e.1, e.2.sub x) else e)

/-- Body of the descendant loop of `UpdatePackagesForAdded`
(src/miner.cpp lines 266-275): insert a fresh decremented entry when
`desc` is absent from the overlay, decrement the existing entry when
present. -/
def updOne (p : MemPool) (i d : Nat) (m : ModMap) : ModMap :=
  match mapFind d m with
  | none => (d, (freshModEntry p d).sub (p.attr i)) :: m
  | some _ => mapSub d (p.attr i) m

/-- The inner loop of `UpdatePackagesForAdded` for one added entry
`i`: walk the descendants of `i`, skipping members of `alreadyAdded`,
updating the overlay and counting updates. -/
def updInner (p : MemPool) (alreadyAdded : List Nat) (i : Nat)
    (mc : ModMap × Nat) : ModMap × Nat :=
  (descOf p i).foldl
    (fun mc d => if d ∈ alreadyAdded then mc else (updOne p i d mc.1, mc.2 + 1)) mc

/-- `BlockAssembler::UpdatePackagesForAdded` (src/miner.cpp lines
254-279): for every newly added entry, update all of its not-added
descendants in the overlay; returns the updated overlay and the
update count. -/
def UpdatePackagesForAdded (p : MemPool) (alreadyAdded : List Nat)
    (m : ModMap) : ModMap × Nat :=
  alreadyAdded.foldl (fun mc i => updInner p alreadyAdded i mc) (m, 0)

/-! ### Comparators and orderings

`CompareTxMemPoolEntryByAncestorFee` and `CompareTxIterByAncestorCount`
live in txmempool.h / miner.h, not under src/.  Modelled from the
spec (section 4.A): the score is the ancestor fee rate
`mod_fees_with_ancestors / size_with_ancestors`, compared by cross
multiplication, ties broken by the stable identity of the handle; the
block sort is by ancestor count ascending, ties by identity. -/

def ancFeeBetter (fa sa : Int) (ia : Nat) (fb sb : Int) (ib : Nat) : Bool :=
  if fa * sb = fb * sa then decide (ia < ib) else decide (fa * sb > fb * sa)

def modBetter (a b : Nat × ModEntry) : Bool :=
  ancFeeBetter a.2.nModFeesWithAncestors a.2.nSizeWithAncestors a.1
    b.2.nModFeesWithAncestors b.2.nSizeWithAncestors b.1

/-- The best (first under the ancestor-score ordering) entry of the
overlay: `mapModifiedTx.get<ancestor_score>().begin()`. -/
def bestModEntry : ModMap → Option (Nat × ModEntry)
  | [] => none
  | e :: t =>
    match bestModEntry t with
    | none => some e
    | some b => if modBetter b e then some b else some e

/-- Before-or-equal form of the original-aggregate ancestor-score
ordering, used to lay out `mapTx.get<ancestor_score>()` iteration. -/
def ancScoreLE (p : MemPool) (a b : Nat) : Prop :=
  ancFeeBetter (p.attr b).nModFeesWithAncestors ((p.attr b).nSizeWithAncestors : Int) b
    (p.attr a).nModFeesWithAncestors ((p.attr a).nSizeWithAncestors : Int) a = false

instance (p : MemPool) : DecidableRel (ancScoreLE p) := fun a b => by
  unfold ancScoreLE; infer_instance

/-- The mempool's ancestor-score index: all entries, best score
first. -/
def mapTxAncestorScoreOrder (p : MemPool) : List Nat :=
  List.insertionSort (ancScoreLE p) (List.range p.n)

/-- `CompareTxIterByAncestorCount`: ancestor count ascending, ties by
identity. -/
def byAncestorCount (p : MemPool) (a b : Nat) : Prop :=
  (p.attr a).nCountWithAncestors < (p.attr b).nCountWithAncestors ∨
    ((p.attr a).nCountWithAncestors = (p.attr b).nCountWithAncestors ∧ a ≤ b)

instance (p : MemPool) : DecidableRel (byAncestorCount p) := fun a b => by
  unfold byAncestorCount; infer_instance

instance (p : MemPool) : IsTotal Nat (byAncestorCount p) :=
  ⟨fun a b => by unfold byAncestorCount; omega⟩

instance (p : MemPool) : IsTrans Nat (byAncestorCount p) :=
  ⟨fun a b c => by unfold byAncestorCount; omega⟩

/-- `BlockAssembler::SortForBlock` (src/miner.cpp lines 296-305):
sort the package by ancestor count. -/
def SortForBlock (p : MemPool) (package : List Nat) : List Nat :=
  List.insertionSort (byAncestorCount p) package

/-! ### Assembler state and configuration -/

/-- The per-template assembler state (spec section 3 "Assembler
State"), with the parallel per-transaction fee and sig-op vectors of
the template (their coinbase slots, filled at the end of
`CreateNewBlock`, are not part of this state). -/
structure AsmState where
  inBlock : List Nat
  nBlockWeight : Nat
  nBlockSigOpsCost : Nat
  nBlockTx : Nat
  nFees : Int
  vTxFees : List Int
  vTxSigOpsCost : List Nat
  deriving DecidableEq, Repr

/-- `BlockAssembler::resetBlock` (src/miner.cpp lines 99-111): clear
`inBlock`, reserve 4000 weight and 400 sig-op cost for the coinbase,
zero the counters. -/
def resetBlock : AsmState := ⟨[], 4000, 400, 0, 0, [], []⟩

/-- Assembler configuration.  `getBlockMinFee` models
`blockMinFeeRate.GetFee` (policy/feerate, not under src/; the spec's
`min_fee_rate × size`) as an abstract function of the package size;
`fIncludeWitness` is the per-assembly witness decision of
`CreateNewBlock`. -/
structure AsmOptions where
  nBlockMaxWeight : Nat
  getBlockMinFee : Int → Int
  fIncludeWitness : Bool

/-- The clamp applied by the `BlockAssembler` constructor
(src/miner.cpp line 78): weight limited to
`[4000, MAX_BLOCK_WEIGHT - 4000]`. -/
def BlockAssemblerMaxWeight (requested : Nat) : Nat :=
  max 4000 (min (MAX_BLOCK_WEIGHT - 4000) requested)

/-- `BlockAssembler::TestPackage` (src/miner.cpp lines 210-218): the
budget test against the weight and sig-op limits. -/
def TestPackage (cfg : AsmOptions) (st : AsmState)
    (packageSize packageSigOpsCost : Int) : Bool :=
  if (st.nBlockWeight : Int) + (WITNESS_SCALE_FACTOR : Int) * packageSize ≥
      (cfg.nBlockMaxWeight : Int) then false
  else if (st.nBlockSigOpsCost : Int) + packageSigOpsCost ≥
      (MAX_BLOCK_SIGOPS_COST : Int) then false
  else true

/-- `BlockAssembler::TestPackageTransactions` (src/miner.cpp lines
224-233): finality and premature-witness checks over the package. -/
def TestPackageTransactions (cfg : AsmOptions) (p : MemPool)
    (package : List Nat) : Bool :=
  package.all (fun x => (p.attr x).isFinalTx &&
    (cfg.fIncludeWitness || !(p.attr x).hasWitness))

/-- `BlockAssembler::AddToBlock` (src/miner.cpp lines 235-252): append
the transaction together with its raw fee (`GetFee`) and sig-op cost
to the template, and accumulate weight, sig-ops, count and fees. -/
def AddToBlock (p : MemPool) (st : AsmState) (x : Nat) : AsmState :=
  { inBlock := st.inBlock ++ [x]
    nBlockWeight := st.nBlockWeight + (p.attr x).nTxWeight
    nBlockSigOpsCost := st.nBlockSigOpsCost + (p.attr x).nSigOpCost
    nBlockTx := st.nBlockTx + 1
    nFees := st.nFees + (p.attr x).nFee
    vTxFees := st.vTxFees ++ [(p.attr x).nFee]
    vTxSigOpsCost := st.vTxSigOpsCost ++ [(p.attr x).nSigOpCost] }

/-- `BlockAssembler::SkipMapTxEntry` (src/miner.cpp lines 290-294). -/
def SkipMapTxEntry (x : Nat) (mapModifiedTx : ModMap) (st : AsmState)
    (failedTx : List Nat) : Bool :=
  (mapFind x mapModifiedTx).isSome || decide (x ∈ st.inBlock) ||
    decide (x ∈ failedTx)

/-- The package of a candidate: its unlimited in-mempool ancestors
filtered by `onlyUnconfirmed` (drop entries already in the block,
src/miner.cpp lines 197-208, 415) plus the candidate itself (line
416). -/
def packageOf (p : MemPool) (st : AsmState) (c : Nat) : List Nat :=
  ((p.anc c).filter (fun a => decide (a ∉ st.inBlock))) ++ [c]

/-! ### The selection loop (`BlockAssembler::addPackageTxs`) -/

structure LoopState where
  mi : List Nat
  mapModifiedTx : ModMap
  failedTx : List Nat
  nConsecutiveFailed : Nat
  st : AsmState

/-- A selected candidate package: the entry, whether it came from the
overlay, and the package aggregates used by the loop (src/miner.cpp
lines 349-384). -/
structure Candidate where
  iterId : Nat
  fUsingModified : Bool
  packageSize : Int
  packageFees : Int
  packageSigOpsCost : Int
  deriving DecidableEq, Repr

def candOfMod (e : Nat × ModEntry) : Candidate :=
  ⟨e.1, true, e.2.nSizeWithAncestors, e.2.nModFeesWithAncestors,
    e.2.nSigOpCostWithAncestors⟩

def candOfOrig (p : MemPool) (x : Nat) : Candidate :=
  ⟨x, false, ((p.attr x).nSizeWithAncestors : Int),
    (p.attr x).nModFeesWithAncestors, ((p.attr x).nSigOpCostWithAncestors : Int)⟩

/-- Candidate selection (src/miner.cpp lines 347-371): when the mapTx
cursor is exhausted take the best overlay entry; otherwise compare the
cursor's entry (as a fresh modified entry) against the best overlay
entry, preferring the overlay on a strictly better score; advancing
the cursor exactly when the mapTx side is chosen.  Returns the
candidate and the cursor for the rest of the iteration. -/
def chooseCandidate (p : MemPool) (ls : LoopState) :
    Option (Candidate × List Nat) :=
  match ls.mi with
  | [] => (bestModEntry ls.mapModifiedTx).map (fun e => (candOfMod e, []))
  | x :: rest =>
    match bestModEntry ls.mapModifiedTx with
    | some b =>
      if modBetter b (x, freshModEntry p x) then some (candOfMod b, x :: rest)
      else some (candOfOrig p x, rest)
    | none => some (candOfOrig p x, rest)

inductive LoopCtl where
  | done
  | cont (ls : LoopState)

/-- The commit loop (src/miner.cpp lines 434-438): `AddToBlock` each
sorted entry and erase it from the overlay. -/
def commitPackage (p : MemPool) (sortedEntries : List Nat) (st : AsmState)
    (m : ModMap) : AsmState × ModMap :=
  sortedEntries.foldl (fun sm x => (AddToBlock p sm.1 x, mapErase x sm.2)) (st, m)

/-- Failure bookkeeping (src/miner.cpp lines 392-398, 420-423): an
overlay-sourced candidate that fails is erased from the overlay. -/
def failAdjustMap (c : Candidate) (m : ModMap) : ModMap :=
  if c.fUsingModified then mapErase c.iterId m else m

/-- Failure bookkeeping: an overlay-sourced candidate that fails is
recorded in `failedTx`. -/
def failAdjustFailed (c : Candidate) (f : List Nat) : List Nat :=
  if c.fUsingModified then c.iterId :: f else f

/-- One iteration of the selection loop after the skip test
(src/miner.cpp lines 347-443): candidate selection, the fee-rate
floor (terminating the loop, `.done`), the budget test with failure
handling and the consecutive-failure cutoff, the package finality
test, and the commit with its descendant refresh. -/
def loopBody (p : MemPool) (cfg : AsmOptions) (ls : LoopState) : LoopCtl :=
  match chooseCandidate p ls with
  | none => .done
  | some (c, mi') =>
    if c.packageFees < cfg.getBlockMinFee c.packageSize then .done
    else if ¬ TestPackage cfg ls.st c.packageSize c.packageSigOpsCost then
      if ls.nConsecutiveFailed + 1 > 1000 ∧
          ls.st.nBlockWeight > cfg.nBlockMaxWeight - 4000 then .done
      else .cont ⟨mi', failAdjustMap c ls.mapModifiedTx,
        failAdjustFailed c ls.failedTx, ls.nConsecutiveFailed + 1, ls.st⟩
    else if ¬ TestPackageTransactions cfg p (packageOf p ls.st c.iterId) then
      .cont ⟨mi', failAdjustMap c ls.mapModifiedTx,
        failAdjustFailed c ls.failedTx, ls.nConsecutiveFailed, ls.st⟩
    else
      .cont ⟨mi',
        (UpdatePackagesForAdded p (packageOf p ls.st c.iterId)
          (commitPackage p (SortForBlock p (packageOf p ls.st c.iterId)) ls.st
            ls.mapModifiedTx).2).1,
        ls.failedTx, 0,
        (commitPackage p (SortForBlock p (packageOf p ls.st c.iterId)) ls.st
          ls.mapModifiedTx).1⟩

/-- One iteration of the selection loop: the `while` guard
(src/miner.cpp line 338, `.done` when it fails) and the skip fast
path (lines 341-345), then the body. -/
def loopStep (p : MemPool) (cfg : AsmOptions) (ls : LoopState) : LoopCtl :=
  if ls.mi = [] ∧ ls.mapModifiedTx = [] then .done
  else
    match ls.mi with
    | x :: rest =>
      if SkipMapTxEntry x ls.mapModifiedTx ls.st ls.failedTx then
        .cont ⟨rest, ls.mapModifiedTx, ls.failedTx, ls.nConsecutiveFailed, ls.st⟩
      else loopBody p cfg ls
    | [] => loopBody p cfg ls

/-- The selection loop, with fuel bounding the number of iterations
(the C++ loop terminates; fuel exhaustion returns the state reached,
and every theorem below holds for every fuel).  Both loop exits
(`.done`, via the guard, the fee-rate floor or the
consecutive-failure cutoff) return the current state. -/
def loopRun (p : MemPool) (cfg : AsmOptions) : Nat → LoopState → AsmState
  | 0, ls => ls.st
  | fuel + 1, ls =>
    match loopStep p cfg ls with
    | .done => ls.st
    | .cont ls' => loopRun p cfg fuel ls'

/-- `BlockAssembler::addPackageTxs` (src/miner.cpp lines 317-445):
prime the overlay from the entries already in the block, then iterate
the mempool's ancestor-score index against the overlay. -/
def addPackageTxs (p : MemPool) (cfg : AsmOptions) (fuel : Nat)
    (st0 : AsmState) : AsmState :=
  loopRun p cfg fuel
    ⟨mapTxAncestorScoreOrder p, (UpdatePackagesForAdded p st0.inBlock []).1,
      [], 0, st0⟩

/-- The transaction-selection part of `BlockAssembler::CreateNewBlock`
(src/miner.cpp lines 113-195): reset the per-template state, then run
the selection loop. -/
def CreateNewBlockSelection (p : MemPool) (cfg : AsmOptions) (fuel : Nat) :
    AsmState :=
  addPackageTxs p cfg fuel resetBlock

/-- The coinbase output value set by `CreateNewBlock` (src/miner.cpp
line 171): accumulated fees plus the block subsidy (external
`GetBlockSubsidy`). -/
def coinbaseOutputValue (p : MemPool) (cfg : AsmOptions) (fuel : Nat)
    (subsidy : Int) : Int :=
  (CreateNewBlockSelection p cfg fuel).nFees + subsidy

/-! ### Characterisation of the overlay update (claim C6) -/

/-- Decrement of overlay aggregates by the summed individual
contributions of a list of entries. -/
def ModEntry.subAll (m : ModEntry) (p : MemPool) (l : List Nat) : ModEntry :=
  ⟨m.nSizeWithAncestors - (sumBy p MemEntry.nTxSize l : Nat),
   m.nModFeesWithAncestors - sumBy p MemEntry.nModifiedFee l,
   m.nSigOpCostWithAncestors - (sumBy p MemEntry.nSigOpCost l : Nat)⟩

theorem sumBy_nil {α : Type} [AddCommMonoid α] (p : MemPool) (f : MemEntry → α) :
    sumBy p f [] = 0 := rfl

theorem sumBy_cons {α : Type} [AddCommMonoid α] (p : MemPool) (f : MemEntry → α)
    (i : Nat) (l : List Nat) : sumBy p f (i :: l) = f (p.attr i) + sumBy p f l := by
  simp [sumBy]

theorem ModEntry.subAll_nil (m : ModEntry) (p : MemPool) : m.subAll p [] = m := by
  simp [ModEntry.subAll, sumBy_nil]

theorem ModEntry.sub_subAll (m : ModEntry) (p : MemPool) (i : Nat) (l : List Nat) :
    (m.sub (p.attr i)).subAll p l = m.subAll p (i :: l) := by
  simp only [ModEntry.subAll, ModEntry.sub, sumBy_cons, ModEntry.mk.injEq]
  refine ⟨by push_cast; ring, by ring, by push_cast; ring⟩

theorem mapFind_cons (d : Nat) (e : Nat × ModEntry) (m : ModMap) :
    mapFind d (e :: m) = if e.1 = d then some e.2 else mapFind d m := rfl

theorem mapFind_mapSub_ne (d dd : Nat) (x : MemEntry) (h : dd ≠ d) (m : ModMap) :
    mapFind d (mapSub dd x m) = mapFind d m := by
  induction m with
  | nil => rfl
  | cons e t ih =>
    by_cases h1 : e.1 = dd
    · simp only [mapSub, List.map_cons, if_pos h1, mapFind_cons] at *
      rw [if_neg (by omega), if_neg (by omega)]
      exact ih
    · simp only [mapSub, List.map_cons, if_neg h1, mapFind_cons] at *
      split
      · rfl
      · exact ih

theorem mapFind_mapSub_eq (d : Nat) (x : MemEntry) (m : ModMap) :
    mapFind d (mapSub d x m) = (mapFind d m).map (fun me => me.sub x) := by
  induction m with
  | nil => rfl
  | cons e t ih =>
    by_cases h1 : e.1 = d
    · simp only [mapSub, List.map_cons, if_pos h1, mapFind_cons, h1]
      simp
    · simp only [mapSub, List.map_cons, if_neg h1, mapFind_cons]
      exact ih

theorem mapFind_updOne_ne (p : MemPool) (i d dd : Nat) (h : dd ≠ d) (m : ModMap) :
    mapFind d (updOne p i dd m) = mapFind d m := by
  unfold updOne
  cases hf : mapFind dd m with
  | none => rw [mapFind_cons, if_neg h]
  | some me => exact mapFind_mapSub_ne d dd (p.attr i) h m

theorem mapFind_updOne_eq (p : MemPool) (i d : Nat) (m : ModMap) :
    mapFind d (updOne p i d m) =
      some (((mapFind d m).getD (freshModEntry p d)).sub (p.attr i)) := by
  unfold updOne
  cases hf : mapFind d m with
  | none =>
    rw [mapFind_cons, if_pos rfl]
    rfl
  | some me =>
    rw [mapFind_mapSub_eq, hf]
    rfl

theorem mapFind_updInnerFold (p : MemPool) (A : List Nat) (i d : Nat) :
    ∀ ds : List Nat, ds.Nodup → ∀ mc : ModMap × Nat,
    mapFind d ((ds.foldl
        (fun mc dd => if dd ∈ A then mc else (updOne p i dd mc.1, mc.2 + 1)) mc).1) =
      if d ∈ ds ∧ d ∉ A then
        some (((mapFind d mc.1).getD (freshModEntry p d)).sub (p.attr i))
      else mapFind d mc.1
  | [], _, mc => by simp
  | dd :: ds', hnd, mc => by
    rw [List.foldl_cons]
    have hni : dd ∉ ds' := (List.nodup_cons.mp hnd).1
    by_cases hA : dd ∈ A
    · rw [if_pos hA, mapFind_updInnerFold p A i d ds' hnd.of_cons mc]
      have hiff : (d ∈ dd :: ds' ∧ d ∉ A) ↔ (d ∈ ds' ∧ d ∉ A) := by
        simp only [List.mem_cons]
        constructor
        · rintro ⟨h1 | h1, h2⟩
          · subst h1
            exact absurd hA h2
          · exact ⟨h1, h2⟩
        · rintro ⟨h1, h2⟩
          exact ⟨Or.inr h1, h2⟩
      exact if_congr hiff.symm rfl rfl
    · rw [if_neg hA,
        mapFind_updInnerFold p A i d ds' hnd.of_cons (updOne p i dd mc.1, mc.2 + 1)]
      by_cases hdd : dd = d
      · subst hdd
        rw [if_neg (by intro h; exact hni h.1)]
        rw [mapFind_updOne_eq]
        rw [if_pos ⟨List.mem_cons_self dd ds', hA⟩]
      · rw [mapFind_updOne_ne p i d dd hdd]
        have hiff : (d ∈ dd :: ds' ∧ d ∉ A) ↔ (d ∈ ds' ∧ d ∉ A) := by
          simp only [List.mem_cons]
          constructor
          · rintro ⟨h1 | h1, h2⟩
            · exact absurd h1.symm hdd
            · exact ⟨h1, h2⟩
          · rintro ⟨h1, h2⟩
            exact ⟨Or.inr h1, h2⟩
        exact if_congr hiff.symm rfl rfl

theorem descOf_nodup (p : MemPool) (i : Nat) : (descOf p i).Nodup :=
  (List.nodup_range p.n).filter _

theorem mem_descOf (p : MemPool) (i d : Nat) :
    d ∈ descOf p i ↔ d < p.n ∧ (d = i ∨ i ∈ p.anc d) := by
  simp [descOf, List.mem_filter, List.mem_range]

/-- Overlay value for key `d` after applying the updates of a list of
touching ancestors to an initial lookup result. -/
def overlayAfter (p : MemPool) (d : Nat) (o : Option ModEntry)
    (t : List Nat) : Option ModEntry :=
  match o, t with
  | some m, _ => some (m.subAll p t)
  | none, [] => none
  | none, _ => some ((freshModEntry p d).subAll p t)

theorem overlayAfter_nil (p : MemPool) (d : Nat) (o : Option ModEntry) :
    overlayAfter p d o [] = o := by
  cases o with
  | none => rfl
  | some m => simp [overlayAfter, ModEntry.subAll_nil]

theorem overlayAfter_cons (p : MemPool) (d i : Nat) (o : Option ModEntry)
    (t : List Nat) :
    overlayAfter p d o (i :: t) =
      overlayAfter p d (some ((o.getD (freshModEntry p d)).sub (p.attr i))) t := by
  cases o with
  | none =>
    show some ((freshModEntry p d).subAll p (i :: t)) =
      some (((Option.getD none (freshModEntry p d)).sub (p.attr i)).subAll p t)
    rw [Option.getD_none, ModEntry.sub_subAll]
  | some m =>
    show some (m.subAll p (i :: t)) =
      some (((Option.getD (some m) (freshModEntry p d)).sub (p.attr i)).subAll p t)
    rw [Option.getD_some, ModEntry.sub_subAll]

theorem mapFind_updOuter (p : MemPool) (A : List Nat) (d : Nat)
    (hd : d < p.n) (hdA : d ∉ A) :
    ∀ todo : List Nat, ∀ mc : ModMap × Nat,
    mapFind d ((todo.foldl (fun mc i => updInner p A i mc) mc).1) =
      overlayAfter p d (mapFind d mc.1)
        (todo.filter (fun i => decide (d = i ∨ i ∈ p.anc d)))
  | [], mc => by
    rw [List.foldl_nil, List.filter_nil, overlayAfter_nil]
  | i :: todo', mc => by
    rw [List.foldl_cons, List.filter_cons,
      mapFind_updOuter p A d hd hdA todo' (updInner p A i mc)]
    have hstep : mapFind d ((updInner p A i mc).1) =
        if d ∈ descOf p i ∧ d ∉ A then
          some (((mapFind d mc.1).getD (freshModEntry p d)).sub (p.attr i))
        else mapFind d mc.1 :=
      mapFind_updInnerFold p A i d (descOf p i) (descOf_nodup p i) mc
    by_cases htouch : d = i ∨ i ∈ p.anc d
    · rw [if_pos (by simpa using htouch)]
      rw [hstep, if_pos ⟨(mem_descOf p i d).mpr ⟨hd, htouch⟩, hdA⟩]
      rw [overlayAfter_cons]
    · rw [if_neg (by simpa using htouch)]
      rw [hstep, if_neg (by
        intro hc
        exact htouch ((mem_descOf p i d).mp hc.1).2)]

/-- C6.  The overlay maintenance of `UpdatePackagesForAdded`
(src/miner.cpp lines 254-279): for any entry `d` of the pool that is a
descendant of the added set `alreadyAdded` and not itself added, the
call inserts a fresh modified entry when `d` is absent from the
overlay — its aggregates are `d`'s original ancestor aggregates minus
the summed individual size, modified fee and sig-op cost of the added
transactions that are ancestors of `d` — and decrements the existing
entry by the same sums when `d` is present. -/
theorem updatePackagesForAdded_overlay (p : MemPool) (alreadyAdded : List Nat)
    (M : ModMap) (d : Nat) (hd : d < p.n) (hdA : d ∉ alreadyAdded) :
    (mapFind d M = none → (∃ i ∈ alreadyAdded, i ∈ p.anc d) →
      mapFind d (UpdatePackagesForAdded p alreadyAdded M).1 =
        some ((freshModEntry p d).subAll p
          (alreadyAdded.filter (fun i => decide (i ∈ p.anc d))))) ∧
    (∀ m, mapFind d M = some m →
      mapFind d (UpdatePackagesForAdded p alreadyAdded M).1 =
        some (m.subAll p
          (alreadyAdded.filter (fun i => decide (i ∈ p.anc d))))) := by
  have hfc : alreadyAdded.filter (fun i => decide (d = i ∨ i ∈ p.anc d)) =
      alreadyAdded.filter (fun i => decide (i ∈ p.anc d)) := by
    apply List.filter_congr
    intro i hi
    have hne : d ≠ i := fun h => hdA (h ▸ hi)
    simp [hne]
  have h := mapFind_updOuter p alreadyAdded d hd hdA alreadyAdded (M, 0)
  rw [hfc] at h
  constructor
  · intro hnone hex
    rw [UpdatePackagesForAdded, h, hnone]
    have hne : alreadyAdded.filter (fun i => decide (i ∈ p.anc d)) ≠ [] := by
      obtain ⟨i, hiA, hianc⟩ := hex
      intro hempty
      have : i ∈ alreadyAdded.filter (fun i => decide (i ∈ p.anc d)) :=
        List.mem_filter.mpr ⟨hiA, by simpa using hianc⟩
      rw [hempty] at this
      exact absurd this (List.not_mem_nil i)
    cases hft : alreadyAdded.filter (fun i => decide (i ∈ p.anc d)) with
    | nil => exact absurd hft hne
    | cons a t => rfl
  · intro m hsome
    rw [UpdatePackagesForAdded, h, hsome]
    rfl

/-! ### A concrete two-entry pool used by the witnesses -/

def entryEx0 : MemEntry := ⟨100, 400, 10, 10, 4, 100, 10, 4, 1, false, true⟩

def entryEx1 : MemEntry := ⟨200, 800, 30, 30, 8, 300, 40, 12, 2, false, true⟩

def poolEx : MemPool :=
  ⟨2, fun i => if i = 0 then entryEx0 else entryEx1,
    fun i => if i = 1 then [0] else []⟩

/-- C6 witness: adding entry 0 of the two-entry pool to an empty
overlay creates a modified entry for its descendant 1 with the
original aggregates minus entry 0's individual contributions. -/
theorem updatePackagesForAdded_overlay_witness :
    (1 : Nat) < poolEx.n ∧ (1 : Nat) ∉ [0] ∧
    mapFind 1 (UpdatePackagesForAdded poolEx [0] []).1 =
      some ((freshModEntry poolEx 1).subAll poolEx
        ([0].filter (fun i => decide (i ∈ poolEx.anc 1)))) :=
  ⟨by decide, by decide,
    (updatePackagesForAdded_overlay poolEx [0] [] 1 (by decide) (by decide)).1 rfl
      ⟨0, by decide, by decide⟩⟩

/-! ### Remaining-package accounting

For a pool entry `d` and an included set `I`, `remBy p f I d` is `f`
summed over the package that `d` would contribute: `d` itself plus its
ancestors outside `I`. -/

def remBy (p : MemPool) (f : MemEntry → Nat) (I : List Nat) (d : Nat) : Nat :=
  f (p.attr d) + sumBy p f ((p.anc d).filter (fun a => decide (a ∉ I)))

theorem sumBy_append {α : Type} [AddCommMonoid α] (p : MemPool) (f : MemEntry → α)
    (l₁ l₂ : List Nat) : sumBy p f (l₁ ++ l₂) = sumBy p f l₁ + sumBy p f l₂ := by
  simp [sumBy]

theorem sumBy_perm {α : Type} [AddCommMonoid α] (p : MemPool) (f : MemEntry → α)
    {l₁ l₂ : List Nat} (h : l₁.Perm l₂) : sumBy p f l₁ = sumBy p f l₂ :=
  (h.map _).sum_eq

theorem sumBy_filter_le (p : MemPool) (f : MemEntry → Nat) (q : Nat → Bool) :
    ∀ l : List Nat, sumBy p f (l.filter q) ≤ sumBy p f l
  | [] => le_refl _
  | a :: t => by
    rw [List.filter_cons]
    by_cases hq : q a = true
    · rw [if_pos hq, sumBy_cons, sumBy_cons]
      exact Nat.add_le_add_left (sumBy_filter_le p f q t) _
    · rw [if_neg hq, sumBy_cons]
      exact le_trans (sumBy_filter_le p f q t) (Nat.le_add_left _ _)

theorem sumBy_filter_mono (p : MemPool) (f : MemEntry → Nat) (q r : Nat → Bool)
    (h : ∀ a, q a = true → r a = true) :
    ∀ l : List Nat, sumBy p f (l.filter q) ≤ sumBy p f (l.filter r)
  | [] => le_refl _
  | a :: t => by
    rw [List.filter_cons, List.filter_cons]
    by_cases hq : q a = true
    · rw [if_pos hq, if_pos (h a hq), sumBy_cons, sumBy_cons]
      exact Nat.add_le_add_left (sumBy_filter_mono p f q r h t) _
    · rw [if_neg hq]
      by_cases hr : r a = true
      · rw [if_pos hr, sumBy_cons]
        exact le_trans (sumBy_filter_mono p f q r h t) (Nat.le_add_left _ _)
      · rw [if_neg hr]
        exact sumBy_filter_mono p f q r h t

theorem remBy_mono (p : MemPool) (f : MemEntry → Nat) {I I' : List Nat}
    (h : ∀ a ∈ I, a ∈ I') (d : Nat) : remBy p f I' d ≤ remBy p f I d := by
  unfold remBy
  refine Nat.add_le_add_left (sumBy_filter_mono p f _ _ ?_ _) _
  intro a ha
  simp only [decide_eq_true_eq] at ha ⊢
  intro hmem
  exact ha (h a hmem)

theorem remBy_congr (p : MemPool) (f : MemEntry → Nat) {I I' : List Nat}
    (h : ∀ a, a ∈ I ↔ a ∈ I') (d : Nat) : remBy p f I d = remBy p f I' d := by
  unfold remBy
  congr 1
  apply congrArg
  apply List.filter_congr
  intro a _
  exact decide_eq_decide.mpr (not_congr (h a))

theorem remBy_le_orig (p : MemPool) (f : MemEntry → Nat) (I : List Nat) (d : Nat) :
    remBy p f I d ≤ f (p.attr d) + sumBy p f (p.anc d) :=
  Nat.add_le_add_left (sumBy_filter_le p f _ _) _

theorem sumBy_filter_extract (p : MemPool) (f : MemEntry → Nat) (I : List Nat)
    (i : Nat) (hiI : i ∉ I) :
    ∀ l : List Nat, l.Nodup → i ∈ l →
    sumBy p f (l.filter (fun a => decide (a ∉ I))) =
      f (p.attr i) + sumBy p f (l.filter (fun a => decide (a ∉ I ++ [i])))
  | [], _, him => absurd him (List.not_mem_nil i)
  | a :: t, hnd, him => by
    rw [List.filter_cons, List.filter_cons]
    by_cases hai : a = i
    · subst hai
      rw [if_pos (by simpa using hiI), if_neg (by simp)]
      rw [sumBy_cons]
      congr 1
      apply congrArg
      apply List.filter_congr
      intro x hx
      have hxa : x ≠ a := fun h => (List.nodup_cons.mp hnd).1 (h ▸ hx)
      exact decide_eq_decide.mpr (by simp [List.mem_append, hxa])
    · have hit : i ∈ t := by
        rcases List.mem_cons.mp him with h | h
        · exact absurd h.symm hai
        · exact h
      have hrec := sumBy_filter_extract p f I i hiI t hnd.of_cons hit
      have hsame : (decide (a ∉ I) : Bool) = decide (a ∉ I ++ [i]) :=
        decide_eq_decide.mpr (by simp [List.mem_append, hai])
      by_cases hq : (decide (a ∉ I) : Bool) = true
      · rw [if_pos hq, if_pos (hsame ▸ hq), sumBy_cons, sumBy_cons, hrec]
        omega
      · rw [if_neg hq, if_neg (hsame ▸ hq)]
        exact hrec

theorem remBy_extract (p : MemPool) (f : MemEntry → Nat) {I : List Nat} {i d : Nat}
    (hnd : (p.anc d).Nodup) (hi : i ∈ p.anc d) (hiI : i ∉ I) :
    remBy p f I d = f (p.attr i) + remBy p f (I ++ [i]) d := by
  unfold remBy
  rw [sumBy_filter_extract p f I i hiI (p.anc d) hnd hi]
  omega

/-! ### Package lemmas -/

theorem mem_packageOf (p : MemPool) (st : AsmState) (c x : Nat) :
    x ∈ packageOf p st c ↔ (x ∈ p.anc c ∧ x ∉ st.inBlock) ∨ x = c := by
  simp [packageOf, List.mem_filter]

theorem packageOf_nodup (p : MemPool) (hwf : p.WF) (st : AsmState) {c : Nat}
    (hc : c < p.n) : (packageOf p st c).Nodup := by
  unfold packageOf
  refine List.Nodup.append ((hwf.ancNodup c hc).filter _) (List.nodup_singleton c) ?_
  intro x hx hxc
  rw [List.mem_singleton] at hxc
  subst hxc
  exact hwf.ancIrrefl _ hc (List.mem_of_mem_filter hx)

theorem packageOf_lt (p : MemPool) (hwf : p.WF) (st : AsmState) {c : Nat}
    (hc : c < p.n) : ∀ x ∈ packageOf p st c, x < p.n := by
  intro x hx
  rcases (mem_packageOf p st c x).mp hx with ⟨h1, _⟩ | h1
  · exact hwf.ancLt c hc x h1
  · exact h1 ▸ hc

theorem packageOf_disjoint (p : MemPool) (st : AsmState) {c : Nat}
    (hc : c ∉ st.inBlock) : ∀ x ∈ packageOf p st c, x ∉ st.inBlock := by
  intro x hx
  rcases (mem_packageOf p st c x).mp hx with ⟨_, h2⟩ | h1
  · exact h2
  · exact h1 ▸ hc

theorem packageOf_sumBy (p : MemPool) (st : AsmState) (c : Nat) (f : MemEntry → Nat) :
    sumBy p f (packageOf p st c) = remBy p f st.inBlock c := by
  unfold packageOf remBy
  rw [sumBy_append]
  have : sumBy p f [c] = f (p.attr c) := by simp [sumBy]
  rw [this]
  omega

/-- Closure of a committed package: every ancestor of a package member
is either already in the block or in the package. -/
theorem packageOf_closed (p : MemPool) (hwf : p.WF) (st : AsmState) {c : Nat}
    (hc : c < p.n) : ∀ x ∈ packageOf p st c, ∀ a ∈ p.anc x,
      a ∈ st.inBlock ∨ a ∈ packageOf p st c := by
  intro x hx a ha
  rcases (mem_packageOf p st c x).mp hx with ⟨h1, _⟩ | h1
  · have hac : a ∈ p.anc c := hwf.ancTrans c hc x h1 a ha
    by_cases haI : a ∈ st.inBlock
    · exact Or.inl haI
    · exact Or.inr ((mem_packageOf p st c a).mpr (Or.inl ⟨hac, haI⟩))
  · subst h1
    by_cases haI : a ∈ st.inBlock
    · exact Or.inl haI
    · exact Or.inr ((mem_packageOf p st x a).mpr (Or.inl ⟨ha, haI⟩))

/-! ### Topological order -/

/-- Topological ordering of a list of entries: an entry never appears
at or before one of its in-mempool ancestors. -/
def TopoOrdered (p : MemPool) (L : List Nat) : Prop :=
  ∀ i, i < L.length → ∀ j, j < L.length → L.getD i 0 ∈ p.anc (L.getD j 0) → i < j

theorem count_lt_of_anc (p : MemPool) (hwf : p.WF) {a b : Nat} (ha : a < p.n)
    (hb : b < p.n) (hab : a ∈ p.anc b) :
    (p.attr a).nCountWithAncestors < (p.attr b).nCountWithAncestors := by
  rw [hwf.countAgg a ha, hwf.countAgg b hb]
  have hsub : (a :: p.anc a) ⊆ p.anc b := by
    intro x hx
    rcases List.mem_cons.mp hx with h | h
    · exact h ▸ hab
    · exact hwf.ancTrans b hb a hab x h
  have hnd : (a :: p.anc a).Nodup :=
    List.nodup_cons.mpr ⟨hwf.ancIrrefl a ha, hwf.ancNodup a ha⟩
  have hlen := (List.subperm_of_subset hnd hsub).length_le
  simp only [List.length_cons] at hlen
  omega

theorem topoOrdered_append (p : MemPool) (hwf : p.WF) (L S : List Nat)
    (hL : TopoOrdered p L) (hclosed : ∀ x ∈ L, ∀ a ∈ p.anc x, a ∈ L)
    (hdisj : ∀ x ∈ S, x ∉ L) (hSlt : ∀ x ∈ S, x < p.n)
    (hsorted : List.Sorted (byAncestorCount p) S) :
    TopoOrdered p (L ++ S) := by
  intro i hi j hj hanc
  rw [List.length_append] at hi hj
  by_cases hiL : i < L.length
  · by_cases hjL : j < L.length
    · rw [List.getD_append _ _ _ _ hiL, List.getD_append _ _ _ _ hjL] at hanc
      exact hL i hiL j hjL hanc
    · omega
  · have hi' : i - L.length < S.length := by omega
    have himem : S.getD (i - L.length) 0 ∈ S := by
      rw [List.getD_eq_getElem _ _ hi']
      exact List.getElem_mem _
    by_cases hjL : j < L.length
    · exfalso
      rw [List.getD_append_right _ _ _ _ (le_of_not_lt hiL),
        List.getD_append _ _ _ _ hjL] at hanc
      have hjmem : L.getD j 0 ∈ L := by
        rw [List.getD_eq_getElem _ _ hjL]
        exact List.getElem_mem _
      exact hdisj _ himem (hclosed _ hjmem _ hanc)
    · rw [List.getD_append_right _ _ _ _ (le_of_not_lt hiL),
        List.getD_append_right _ _ _ _ (le_of_not_lt hjL)] at hanc
      have hj' : j - L.length < S.length := by omega
      have hjmem : S.getD (j - L.length) 0 ∈ S := by
        rw [List.getD_eq_getElem _ _ hj']
        exact List.getElem_mem _
      have hcnt := count_lt_of_anc p hwf (hSlt _ himem) (hSlt _ hjmem) hanc
      by_contra hnot
      have hle : j - L.length ≤ i - L.length := by omega
      rcases Nat.lt_or_ge (j - L.length) (i - L.length) with hlt | hge
      · have hrel := hsorted.rel_get_of_lt
          (a := ⟨j - L.length, hj'⟩) (b := ⟨i - L.length, hi'⟩) hlt
        rw [List.getD_eq_getElem _ _ hj', List.getD_eq_getElem _ _ hi'] at hanc hcnt
        simp only [List.get_eq_getElem] at hrel
        rcases hrel with h | ⟨h, _⟩
        · omega
        · omega
      · have heq : j - L.length = i - L.length := by omega
        rw [heq] at hanc hcnt
        omega

/-! ### Commit-fold and overlay-membership lemmas -/

theorem commitPackage_spec (p : MemPool) :
    ∀ (S : List Nat) (st : AsmState) (m : ModMap),
    commitPackage p S st m =
      ({ inBlock := st.inBlock ++ S,
         nBlockWeight := st.nBlockWeight + sumBy p MemEntry.nTxWeight S,
         nBlockSigOpsCost := st.nBlockSigOpsCost + sumBy p MemEntry.nSigOpCost S,
         nBlockTx := st.nBlockTx + S.length,
         nFees := st.nFees + sumBy p MemEntry.nFee S,
         vTxFees := st.vTxFees ++ S.map (fun x => (p.attr x).nFee),
         vTxSigOpsCost :=
           st.vTxSigOpsCost ++ S.map (fun x => (p.attr x).nSigOpCost) },
       S.foldl (fun m x => mapErase x m) m)
  | [], st, m => by
    simp [commitPackage, sumBy_nil]
  | x :: S', st, m => by
    rw [commitPackage, List.foldl_cons]
    have h := commitPackage_spec p S' (AddToBlock p st x) (mapErase x m)
    rw [commitPackage] at h
    rw [h, List.foldl_cons]
    simp only [Prod.mk.injEq, AddToBlock, AsmState.mk.injEq]
    refine ⟨⟨?_, ?_, ?_, ?_, ?_, ?_, ?_⟩, trivial⟩
    · simp
    · rw [sumBy_cons]; omega
    · rw [sumBy_cons]; omega
    · simp only [List.length_cons]; omega
    · rw [sumBy_cons]; ring
    · simp
    · simp

theorem mem_mapErase (d : Nat) (m : ModMap) (e : Nat × ModEntry) :
    e ∈ mapErase d m ↔ e ∈ m ∧ e.1 ≠ d := by
  simp [mapErase, List.mem_filter]

theorem mem_eraseFold (S : List Nat) :
    ∀ (m : ModMap) (e : Nat × ModEntry),
    e ∈ S.foldl (fun m x => mapErase x m) m ↔ e ∈ m ∧ e.1 ∉ S := by
  induction S with
  | nil => intro m e; simp
  | cons x S' ih =>
    intro m e
    rw [List.foldl_cons, ih (mapErase x m) e, mem_mapErase]
    simp only [List.mem_cons]
    constructor
    · rintro ⟨⟨h1, h2⟩, h3⟩
      exact ⟨h1, by rintro (h | h); exacts [h2 h, h3 h]⟩
    · rintro ⟨h1, h2⟩
      exact ⟨⟨h1, fun h => h2 (Or.inl h)⟩, fun h => h2 (Or.inr h)⟩

theorem bestModEntry_mem : ∀ (m : ModMap) (e : Nat × ModEntry),
    bestModEntry m = some e → e ∈ m
  | [], e => fun h => by simp [bestModEntry] at h
  | x :: t, e => fun h => by
    simp only [bestModEntry] at h
    cases ht : bestModEntry t with
    | none =>
      simp only [ht, Option.some.injEq] at h
      exact List.mem_cons.mpr (Or.inl h.symm)
    | some b =>
      simp only [ht] at h
      by_cases hb : modBetter b x = true
      · rw [if_pos hb] at h
        exact List.mem_cons.mpr (Or.inr (bestModEntry_mem t e ((Option.some.inj h) ▸ ht)))
      · rw [if_neg hb] at h
        exact List.mem_cons.mpr (Or.inl (Option.some.inj h).symm)

theorem chooseCandidate_cases (p : MemPool) (ls : LoopState) (c : Candidate)
    (mi' : List Nat) (h : chooseCandidate p ls = some (c, mi')) :
    (∃ e ∈ ls.mapModifiedTx, c = candOfMod e ∧ mi' = ls.mi) ∨
    (∃ rest, ls.mi = c.iterId :: rest ∧ c = candOfOrig p c.iterId ∧ mi' = rest) := by
  unfold chooseCandidate at h
  cases hmi : ls.mi with
  | nil =>
    cases hb : bestModEntry ls.mapModifiedTx with
    | none => simp [hmi, hb] at h
    | some e =>
      simp only [hmi, hb, Option.map_some', Option.some.injEq, Prod.mk.injEq] at h
      exact Or.inl ⟨e, bestModEntry_mem _ _ hb, h.1.symm, h.2.symm⟩
  | cons x rest =>
    cases hb : bestModEntry ls.mapModifiedTx with
    | none =>
      simp only [hmi, hb, Option.some.injEq, Prod.mk.injEq] at h
      refine Or.inr ⟨rest, ?_, ?_, h.2.symm⟩
      · rw [← h.1]
        rfl
      · rw [← h.1]
        rfl
    | some b =>
      by_cases hcmp : modBetter b (x, freshModEntry p x) = true
      · simp only [hmi, hb, hcmp, if_true, Option.some.injEq, Prod.mk.injEq] at h
        exact Or.inl ⟨b, bestModEntry_mem _ _ hb, h.1.symm, h.2.symm⟩
      · simp [hmi, hb, hcmp] at h
        refine Or.inr ⟨rest, ?_, ?_, h.2.symm⟩
        · rw [← h.1]
          rfl
        · rw [← h.1]
          rfl

/-! ### Entry bounds through the overlay update -/

theorem remBy_nil (p : MemPool) (f : MemEntry → Nat) (d : Nat) :
    remBy p f [] d = f (p.attr d) + sumBy p f (p.anc d) := by
  unfold remBy
  congr 2
  apply List.filter_eq_self.mpr
  intro a _
  simp

/-- Lower bound kept for every overlay entry: the entry is a pool
member outside the included set, and its overlay size and sig-op
aggregates dominate the sums over its yet-unincluded package. -/
def EntryBound (p : MemPool) (I : List Nat) (e : Nat × ModEntry) : Prop :=
  e.1 < p.n ∧ e.1 ∉ I ∧
  ((remBy p MemEntry.nTxSize I e.1 : Int) ≤ e.2.nSizeWithAncestors) ∧
  ((remBy p MemEntry.nSigOpCost I e.1 : Int) ≤ e.2.nSigOpCostWithAncestors)

theorem entryBound_mono (p : MemPool) {I I' : List Nat} {e : Nat × ModEntry}
    (h : ∀ a ∈ I, a ∈ I') (hni : e.1 ∉ I') (hb : EntryBound p I e) :
    EntryBound p I' e := by
  refine ⟨hb.1, hni, le_trans ?_ hb.2.2.1, le_trans ?_ hb.2.2.2⟩
  · exact_mod_cast remBy_mono p _ h e.1
  · exact_mod_cast remBy_mono p _ h e.1

theorem mapFind_eq_none_forall (d : Nat) :
    ∀ m : ModMap, mapFind d m = none → ∀ e ∈ m, e.1 ≠ d
  | [], _, e, he => absurd he (List.not_mem_nil e)
  | x :: t, h, e, he => by
    rw [mapFind_cons] at h
    by_cases hx : x.1 = d
    · rw [if_pos hx] at h
      exact absurd h (by simp)
    · rw [if_neg hx] at h
      rcases List.mem_cons.mp he with rfl | hmem
      · exact hx
      · exact mapFind_eq_none_forall d t h e hmem

theorem mem_updOne (p : MemPool) (i dd : Nat) (m : ModMap) (e : Nat × ModEntry)
    (he : e ∈ updOne p i dd m) :
    (e ∈ m ∧ e.1 ≠ dd) ∨ e = (dd, (freshModEntry p dd).sub (p.attr i)) ∨
    (∃ me, (dd, me) ∈ m ∧ e = (dd, me.sub (p.attr i))) := by
  unfold updOne at he
  cases hf : mapFind dd m with
  | none =>
    rw [hf] at he
    rcases List.mem_cons.mp he with rfl | hmem
    · exact Or.inr (Or.inl rfl)
    · exact Or.inl ⟨hmem, mapFind_eq_none_forall dd m hf e hmem⟩
  | some me0 =>
    rw [hf] at he
    obtain ⟨e0, he0, heq⟩ := List.mem_map.mp he
    by_cases h0 : e0.1 = dd
    · refine Or.inr (Or.inr ⟨e0.2, ?_, ?_⟩)
      · rw [← h0]
        exact he0
      · rw [← heq, if_pos h0, h0]
    · rw [← heq, if_neg h0]
      exact Or.inl ⟨he0, h0⟩

theorem remBy_after_sub (p : MemPool) (f : MemEntry → Nat) (IB : List Nat)
    {i dd : Nat} (hnd : (p.anc dd).Nodup) (hianc : i ∈ p.anc dd) :
    remBy p f (IB ++ [i]) dd + f (p.attr i) ≤ f (p.attr dd) + sumBy p f (p.anc dd) := by
  have h1 : remBy p f (IB ++ [i]) dd ≤ remBy p f [i] dd := by
    refine remBy_mono p f ?_ dd
    intro a ha
    rw [List.mem_singleton] at ha
    simp [ha]
  have h2 : remBy p f [] dd = f (p.attr i) + remBy p f ([] ++ [i]) dd :=
    remBy_extract p f hnd hianc (List.not_mem_nil i)
  rw [remBy_nil] at h2
  rw [List.nil_append] at h2
  omega

theorem entryBound_updInnerFold (p : MemPool) (hwf : p.WF) (A : List Nat) (i : Nat)
    (hiA : i ∈ A) (hilt : i < p.n) (IB : List Nat) (hiIB : i ∉ IB)
    (hins : ∀ d, d < p.n → i ∈ p.anc d → d ∉ A → d ∉ IB) :
    ∀ ds : List Nat, ds.Nodup → (∀ d ∈ ds, d < p.n ∧ (d = i ∨ i ∈ p.anc d)) →
    ∀ mc : ModMap × Nat,
    (∀ e ∈ mc.1, e.1 ∉ A ∧
      (if e.1 ∈ ds ∧ i ∈ p.anc e.1 then EntryBound p IB e
       else EntryBound p (IB ++ [i]) e)) →
    ∀ e ∈ (ds.foldl
        (fun mc dd => if dd ∈ A then mc else (updOne p i dd mc.1, mc.2 + 1)) mc).1,
      e.1 ∉ A ∧ EntryBound p (IB ++ [i]) e
  | [], _, _, mc, hm, e, he => by
    rw [List.foldl_nil] at he
    obtain ⟨h1, h2⟩ := hm e he
    rw [if_neg (by simp)] at h2
    exact ⟨h1, h2⟩
  | dd :: ds', hnd, hds, mc, hm, e, he => by
    rw [List.foldl_cons] at he
    have hni : dd ∉ ds' := (List.nodup_cons.mp hnd).1
    have hds' : ∀ d ∈ ds', d < p.n ∧ (d = i ∨ i ∈ p.anc d) :=
      fun d hd => hds d (List.mem_cons_of_mem _ hd)
    by_cases hA : dd ∈ A
    · rw [if_pos hA] at he
      refine entryBound_updInnerFold p hwf A i hiA hilt IB hiIB hins ds'
        hnd.of_cons hds' mc ?_ e he
      intro e' he'
      obtain ⟨h1, h2⟩ := hm e' he'
      refine ⟨h1, ?_⟩
      by_cases hc : e'.1 ∈ ds' ∧ i ∈ p.anc e'.1
      · rw [if_pos hc]
        rwa [if_pos ⟨List.mem_cons_of_mem _ hc.1, hc.2⟩] at h2
      · have hcond : ¬(e'.1 ∈ dd :: ds' ∧ i ∈ p.anc e'.1) := by
          rintro ⟨hh, hanc2⟩
          rcases List.mem_cons.mp hh with h3 | h3
          · exact h1 (h3 ▸ hA)
          · exact hc ⟨h3, hanc2⟩
        rw [if_neg hc]
        rwa [if_neg hcond] at h2
    · rw [if_neg hA] at he
      obtain ⟨hddlt, hdisj⟩ := hds dd (List.mem_cons_self dd ds')
      have hddne : dd ≠ i := fun h => hA (h ▸ hiA)
      have hianc : i ∈ p.anc dd := by
        rcases hdisj with h | h
        · exact absurd h hddne
        · exact h
      have hddIB : dd ∉ IB := hins dd hddlt hianc hA
      have hddIBi : dd ∉ IB ++ [i] := by
        simp only [List.mem_append, List.mem_singleton]
        rintro (hh | hh)
        · exact hddIB hh
        · exact hddne hh
      refine entryBound_updInnerFold p hwf A i hiA hilt IB hiIB hins ds'
        hnd.of_cons hds' (updOne p i dd mc.1, mc.2 + 1) ?_ e he
      intro e' he'
      rcases mem_updOne p i dd mc.1 e' he' with ⟨hmem, hne⟩ | heq | ⟨me, hmem, heq⟩
      · obtain ⟨h1, h2⟩ := hm e' hmem
        refine ⟨h1, ?_⟩
        by_cases hc : e'.1 ∈ ds' ∧ i ∈ p.anc e'.1
        · rw [if_pos hc]
          rwa [if_pos ⟨List.mem_cons_of_mem _ hc.1, hc.2⟩] at h2
        · have hcond : ¬(e'.1 ∈ dd :: ds' ∧ i ∈ p.anc e'.1) := by
            rintro ⟨hh, hanc2⟩
            rcases List.mem_cons.mp hh with h3 | h3
            · exact hne h3
            · exact hc ⟨h3, hanc2⟩
          rw [if_neg hc]
          rwa [if_neg hcond] at h2
      · subst heq
        refine ⟨hA, ?_⟩
        rw [if_neg (fun hcc => hni hcc.1)]
        refine ⟨hddlt, hddIBi, ?_, ?_⟩
        · have hb := remBy_after_sub p MemEntry.nTxSize IB (hwf.ancNodup dd hddlt) hianc
          show (remBy p MemEntry.nTxSize (IB ++ [i]) dd : Int) ≤
            ((freshModEntry p dd).sub (p.attr i)).nSizeWithAncestors
          simp only [ModEntry.sub, freshModEntry]
          rw [hwf.sizeAgg dd hddlt]
          push_cast
          omega
        · have hb := remBy_after_sub p MemEntry.nSigOpCost IB (hwf.ancNodup dd hddlt) hianc
          show (remBy p MemEntry.nSigOpCost (IB ++ [i]) dd : Int) ≤
            ((freshModEntry p dd).sub (p.attr i)).nSigOpCostWithAncestors
          simp only [ModEntry.sub, freshModEntry]
          rw [hwf.sigAgg dd hddlt]
          push_cast
          omega
      · subst heq
        obtain ⟨h1, h2⟩ := hm (dd, me) hmem
        rw [if_pos ⟨List.mem_cons_self dd ds', hianc⟩] at h2
        refine ⟨h1, ?_⟩
        rw [if_neg (fun hcc => hni hcc.1)]
        obtain ⟨_, _, hsz, hsg⟩ := h2
        refine ⟨hddlt, hddIBi, ?_, ?_⟩
        · have hx := remBy_extract p MemEntry.nTxSize (hwf.ancNodup dd hddlt) hianc hiIB
          simp only [ModEntry.sub]
          rw [hx] at hsz
          push_cast at hsz ⊢
          omega
        · have hx := remBy_extract p MemEntry.nSigOpCost (hwf.ancNodup dd hddlt) hianc hiIB
          simp only [ModEntry.sub]
          rw [hx] at hsg
          push_cast at hsg ⊢
          omega

theorem entryBound_updOuter (p : MemPool) (hwf : p.WF) (A : List Nat) :
    ∀ todo : List Nat, todo.Nodup → (∀ x ∈ todo, x ∈ A) → (∀ x ∈ todo, x < p.n) →
    ∀ IB : List Nat, (∀ x ∈ todo, x ∉ IB) →
    (∀ d, d < p.n → d ∉ A → d ∈ IB → ∀ a ∈ p.anc d, a ∉ todo) →
    ∀ mc : ModMap × Nat, (∀ e ∈ mc.1, e.1 ∉ A ∧ EntryBound p IB e) →
    ∀ e ∈ (todo.foldl (fun mc i => updInner p A i mc) mc).1,
      e.1 ∉ A ∧ EntryBound p (IB ++ todo) e
  | [], _, _, _, IB, _, _, mc, hm, e, he => by
    rw [List.foldl_nil] at he
    rw [List.append_nil]
    exact hm e he
  | i :: rest, hnd, hsubA, hlt, IB, hIB, houter, mc, hm, e, he => by
    rw [List.foldl_cons] at he
    have hiA : i ∈ A := hsubA i (List.mem_cons_self i rest)
    have hilt : i < p.n := hlt i (List.mem_cons_self i rest)
    have hiIB : i ∉ IB := hIB i (List.mem_cons_self i rest)
    have hins : ∀ d, d < p.n → i ∈ p.anc d → d ∉ A → d ∉ IB := by
      intro d hdlt hanc hdA hdIB
      exact houter d hdlt hdA hdIB i hanc (List.mem_cons_self i rest)
    have hinner : ∀ e' ∈ (updInner p A i mc).1, e'.1 ∉ A ∧ EntryBound p (IB ++ [i]) e' := by
      intro e' he'
      unfold updInner at he'
      refine entryBound_updInnerFold p hwf A i hiA hilt IB hiIB hins (descOf p i)
        (descOf_nodup p i) (fun d hd => (mem_descOf p i d).mp hd) mc ?_ e' he'
      intro e0 he0
      obtain ⟨h1, hb⟩ := hm e0 he0
      refine ⟨h1, ?_⟩
      by_cases hc : e0.1 ∈ descOf p i ∧ i ∈ p.anc e0.1
      · rw [if_pos hc]
        exact hb
      · rw [if_neg hc]
        refine entryBound_mono p (fun a ha => List.mem_append.mpr (Or.inl ha)) ?_ hb
        simp only [List.mem_append, List.mem_singleton]
        rintro (hh | hh)
        · exact hb.2.1 hh
        · exact h1 (hh ▸ hiA)
    have hIB' : ∀ x ∈ rest, x ∉ IB ++ [i] := by
      intro x hx
      simp only [List.mem_append, List.mem_singleton]
      rintro (hh | hh)
      · exact hIB x (List.mem_cons_of_mem _ hx) hh
      · exact (List.nodup_cons.mp hnd).1 (hh ▸ hx)
    have houter' : ∀ d, d < p.n → d ∉ A → d ∈ IB ++ [i] → ∀ a ∈ p.anc d, a ∉ rest := by
      intro d hdlt hdA hdIB a ha har
      rcases List.mem_append.mp hdIB with hh | hh
      · exact houter d hdlt hdA hh a ha (List.mem_cons_of_mem _ har)
      · rw [List.mem_singleton] at hh
        exact hdA (hh ▸ hiA)
    have hrec := entryBound_updOuter p hwf A rest hnd.of_cons
      (fun x hx => hsubA x (List.mem_cons_of_mem _ hx))
      (fun x hx => hlt x (List.mem_cons_of_mem _ hx))
      (IB ++ [i]) hIB' houter' (updInner p A i mc) hinner e he
    rwa [List.append_assoc, List.singleton_append] at hrec

/-! ### The selection-loop invariant -/

theorem testPackage_bounds (cfg : AsmOptions) (st : AsmState) (a b : Int)
    (h : TestPackage cfg st a b = true) :
    (st.nBlockWeight : Int) + (WITNESS_SCALE_FACTOR : Int) * a < (cfg.nBlockMaxWeight : Int) ∧
    (st.nBlockSigOpsCost : Int) + b < (MAX_BLOCK_SIGOPS_COST : Int) := by
  unfold TestPackage at h
  by_cases h1 : (st.nBlockWeight : Int) + (WITNESS_SCALE_FACTOR : Int) * a ≥
      (cfg.nBlockMaxWeight : Int)
  · rw [if_pos h1] at h
    exact absurd h (by simp)
  · rw [if_neg h1] at h
    by_cases h2 : (st.nBlockSigOpsCost : Int) + b ≥ (MAX_BLOCK_SIGOPS_COST : Int)
    · rw [if_pos h2] at h
      exact absurd h (by simp)
    · exact ⟨by omega, by omega⟩

theorem sumBy_weight_le (p : MemPool) (hwf : p.WF) :
    ∀ l : List Nat, (∀ x ∈ l, x < p.n) →
    sumBy p MemEntry.nTxWeight l ≤ 4 * sumBy p MemEntry.nTxSize l
  | [], _ => le_refl _
  | x :: t, hl => by
    rw [sumBy_cons, sumBy_cons]
    have h1 := hwf.weightLe x (hl x (List.mem_cons_self x t))
    have h2 := sumBy_weight_le p hwf t (fun y hy => hl y (List.mem_cons_of_mem _ hy))
    omega

theorem entryBound_congr (p : MemPool) {I I' : List Nat} {e : Nat × ModEntry}
    (h : ∀ a, a ∈ I ↔ a ∈ I') (hb : EntryBound p I e) : EntryBound p I' e := by
  refine ⟨hb.1, fun hh => hb.2.1 ((h e.1).mpr hh), ?_, ?_⟩
  · have hc := remBy_congr p MemEntry.nTxSize h e.1
    rw [← hc]
    exact hb.2.2.1
  · have hc := remBy_congr p MemEntry.nSigOpCost h e.1
    rw [← hc]
    exact hb.2.2.2

/-- Invariant of the selection loop: the accumulated weight and sig-op
cost respect the budgets, the included list is a dependency-closed,
topologically ordered set of pool entries, the overlay entries carry
lower bounds for their remaining packages, and the fee accumulators
track the raw fees of the included list. -/
structure LoopInv (p : MemPool) (cfg : AsmOptions) (ls : LoopState) : Prop where
  wLe : ls.st.nBlockWeight ≤ cfg.nBlockMaxWeight
  sLe : ls.st.nBlockSigOpsCost ≤ MAX_BLOCK_SIGOPS_COST
  ibLt : ∀ x ∈ ls.st.inBlock, x < p.n
  ibNd : ls.st.inBlock.Nodup
  ibClosed : ∀ x ∈ ls.st.inBlock, ∀ a ∈ p.anc x, a ∈ ls.st.inBlock
  ibTopo : TopoOrdered p ls.st.inBlock
  miLt : ∀ x ∈ ls.mi, x < p.n
  mmB : ∀ e ∈ ls.mapModifiedTx, EntryBound p ls.st.inBlock e
  feesEq : ls.st.nFees = sumBy p MemEntry.nFee ls.st.inBlock
  vFeesEq : ls.st.vTxFees = ls.st.inBlock.map (fun x => (p.attr x).nFee)


/-- Invariance of a failure continuation: the assembler state is
untouched, the cursor only advances, the overlay only shrinks. -/
theorem loopInv_fail (p : MemPool) (cfg : AsmOptions) (ls : LoopState)
    (hinv : LoopInv p cfg ls) (c : Candidate) (mi' : List Nat) (ncf : Nat)
    (hmisub : ∀ x ∈ mi', x ∈ ls.mi) :
    LoopInv p cfg ⟨mi', failAdjustMap c ls.mapModifiedTx,
      failAdjustFailed c ls.failedTx, ncf, ls.st⟩ := by
  refine ⟨hinv.wLe, hinv.sLe, hinv.ibLt, hinv.ibNd, hinv.ibClosed, hinv.ibTopo,
    fun x hx => hinv.miLt x (hmisub x hx), ?_, hinv.feesEq, hinv.vFeesEq⟩
  intro e he
  refine hinv.mmB e ?_
  unfold failAdjustMap at he
  by_cases hu : c.fUsingModified = true
  · rw [if_pos hu] at he
    exact ((mem_mapErase _ _ _).mp he).1
  · rw [if_neg hu] at he
    exact he

theorem loopBody_cont_inv (p : MemPool) (cfg : AsmOptions) (ls ls' : LoopState)
    (hwf : p.WF) (hinv : LoopInv p cfg ls)
    (hskip : ∀ x rest, ls.mi = x :: rest → x ∉ ls.st.inBlock)
    (h : loopBody p cfg ls = .cont ls') : LoopInv p cfg ls' := by
  unfold loopBody at h
  cases hcc : chooseCandidate p ls with
  | none =>
    rw [hcc] at h
    exact LoopCtl.noConfusion h
  | some cm =>
    obtain ⟨c, mi'⟩ := cm
    simp only [hcc] at h
    have hmisub : ∀ x ∈ mi', x ∈ ls.mi := by
      rcases chooseCandidate_cases p ls c mi' hcc with ⟨e, _, _, hmi⟩ | ⟨rest, hmi, _, hmi'⟩
      · intro x hx
        rw [← hmi]
        exact hx
      · intro x hx
        rw [hmi]
        exact List.mem_cons_of_mem _ (hmi' ▸ hx)
    have hcfacts : c.iterId < p.n ∧ c.iterId ∉ ls.st.inBlock ∧
        ((remBy p MemEntry.nTxSize ls.st.inBlock c.iterId : Int) ≤ c.packageSize) ∧
        ((remBy p MemEntry.nSigOpCost ls.st.inBlock c.iterId : Int) ≤ c.packageSigOpsCost) := by
      rcases chooseCandidate_cases p ls c mi' hcc with ⟨e, hemem, hce, _⟩ | ⟨rest, hmi, hco, _⟩
      · have hb := hinv.mmB e hemem
        subst hce
        exact ⟨hb.1, hb.2.1, hb.2.2.1, hb.2.2.2⟩
      · have hlt : c.iterId < p.n := hinv.miLt _ (hmi ▸ List.mem_cons_self _ rest)
        have hnin : c.iterId ∉ ls.st.inBlock := hskip _ rest hmi
        refine ⟨hlt, hnin, ?_, ?_⟩
        · rw [hco]
          show (remBy p MemEntry.nTxSize ls.st.inBlock c.iterId : Int) ≤
            ((p.attr c.iterId).nSizeWithAncestors : Int)
          rw [hwf.sizeAgg _ hlt]
          have := remBy_le_orig p MemEntry.nTxSize ls.st.inBlock c.iterId
          push_cast
          omega
        · rw [hco]
          show (remBy p MemEntry.nSigOpCost ls.st.inBlock c.iterId : Int) ≤
            ((p.attr c.iterId).nSigOpCostWithAncestors : Int)
          rw [hwf.sigAgg _ hlt]
          have := remBy_le_orig p MemEntry.nSigOpCost ls.st.inBlock c.iterId
          push_cast
          omega
    obtain ⟨hclt, hcnin, hcsz, hcsg⟩ := hcfacts
    by_cases hfloor : c.packageFees < cfg.getBlockMinFee c.packageSize
    · rw [if_pos hfloor] at h
      exact LoopCtl.noConfusion h
    rw [if_neg hfloor] at h
    by_cases htp : TestPackage cfg ls.st c.packageSize c.packageSigOpsCost = true
    · rw [if_neg (by rw [htp]; simp)] at h
      by_cases htpt : TestPackageTransactions cfg p (packageOf p ls.st c.iterId) = true
      · rw [if_neg (by rw [htpt]; simp)] at h
        injection h with h'
        subst h'
        obtain ⟨hwlt, hslt⟩ := testPackage_bounds cfg ls.st _ _ htp
        have hpkgnd := packageOf_nodup p hwf ls.st hclt
        have hpkglt := packageOf_lt p hwf ls.st hclt
        have hpkgdisj := packageOf_disjoint p ls.st hcnin
        have hperm : (SortForBlock p (packageOf p ls.st c.iterId)).Perm
            (packageOf p ls.st c.iterId) := List.perm_insertionSort _ _
        have hSnd : (SortForBlock p (packageOf p ls.st c.iterId)).Nodup :=
          hperm.nodup_iff.mpr hpkgnd
        have hSlt : ∀ x ∈ SortForBlock p (packageOf p ls.st c.iterId), x < p.n :=
          fun x hx => hpkglt x (hperm.mem_iff.mp hx)
        have hSdisj : ∀ x ∈ SortForBlock p (packageOf p ls.st c.iterId),
            x ∉ ls.st.inBlock := fun x hx => hpkgdisj x (hperm.mem_iff.mp hx)
        have hsorted : List.Sorted (byAncestorCount p)
            (SortForBlock p (packageOf p ls.st c.iterId)) :=
          List.sorted_insertionSort _ _
        have hcommit := commitPackage_spec p
          (SortForBlock p (packageOf p ls.st c.iterId)) ls.st ls.mapModifiedTx
        rw [hcommit]
        have hmemiff : ∀ a, a ∈ ls.st.inBlock ++ packageOf p ls.st c.iterId ↔
            a ∈ ls.st.inBlock ++ SortForBlock p (packageOf p ls.st c.iterId) := by
          intro a
          simp only [List.mem_append]
          exact or_congr Iff.rfl hperm.mem_iff.symm
        have hsumS : sumBy p MemEntry.nTxSize
            (SortForBlock p (packageOf p ls.st c.iterId)) =
            remBy p MemEntry.nTxSize ls.st.inBlock c.iterId := by
          rw [sumBy_perm p _ hperm, packageOf_sumBy]
        have hsumSigS : sumBy p MemEntry.nSigOpCost
            (SortForBlock p (packageOf p ls.st c.iterId)) =
            remBy p MemEntry.nSigOpCost ls.st.inBlock c.iterId := by
          rw [sumBy_perm p _ hperm, packageOf_sumBy]
        have hwS := sumBy_weight_le p hwf _ hSlt
        refine ⟨?_, ?_, ?_, ?_, ?_, ?_, ?_, ?_, ?_, ?_⟩
        · show ls.st.nBlockWeight + sumBy p MemEntry.nTxWeight
            (SortForBlock p (packageOf p ls.st c.iterId)) ≤ cfg.nBlockMaxWeight
          rw [hsumS] at hwS
          simp only [WITNESS_SCALE_FACTOR] at hwlt
          omega
        · show ls.st.nBlockSigOpsCost + sumBy p MemEntry.nSigOpCost
            (SortForBlock p (packageOf p ls.st c.iterId)) ≤ MAX_BLOCK_SIGOPS_COST
          rw [hsumSigS]
          omega
        · intro x hx
          rcases List.mem_append.mp hx with hh | hh
          · exact hinv.ibLt x hh
          · exact hSlt x hh
        · exact List.Nodup.append hinv.ibNd hSnd
            (fun a haI haS => hSdisj a haS haI)
        · intro x hx a ha
          rcases List.mem_append.mp hx with hh | hh
          · exact List.mem_append.mpr (Or.inl (hinv.ibClosed x hh a ha))
          · rcases packageOf_closed p hwf ls.st hclt x (hperm.mem_iff.mp hh) a ha
              with hI | hp
            · exact List.mem_append.mpr (Or.inl hI)
            · exact List.mem_append.mpr (Or.inr (hperm.mem_iff.mpr hp))
        · exact topoOrdered_append p hwf _ _ hinv.ibTopo hinv.ibClosed hSdisj hSlt hsorted
        · exact fun x hx => hinv.miLt x (hmisub x hx)
        · intro e he
          have hM1 : ∀ e0 ∈ ((SortForBlock p (packageOf p ls.st c.iterId)).foldl
              (fun m x => mapErase x m) ls.mapModifiedTx),
              e0.1 ∉ packageOf p ls.st c.iterId ∧ EntryBound p ls.st.inBlock e0 := by
            intro e0 he0
            rw [mem_eraseFold] at he0
            exact ⟨fun hp0 => he0.2 (hperm.mem_iff.mpr hp0), hinv.mmB e0 he0.1⟩
          have houter : ∀ d, d < p.n → d ∉ packageOf p ls.st c.iterId →
              d ∈ ls.st.inBlock → ∀ a ∈ p.anc d, a ∉ packageOf p ls.st c.iterId :=
            fun d _ _ hdI a ha hapkg => hpkgdisj a hapkg (hinv.ibClosed d hdI a ha)
          have he' : e ∈ ((packageOf p ls.st c.iterId).foldl
              (fun mc i => updInner p (packageOf p ls.st c.iterId) i mc)
              (((SortForBlock p (packageOf p ls.st c.iterId)).foldl
                (fun m x => mapErase x m) ls.mapModifiedTx), 0)).1 := he
          have hres := entryBound_updOuter p hwf (packageOf p ls.st c.iterId)
            (packageOf p ls.st c.iterId) hpkgnd (fun x hx => hx) hpkglt
            ls.st.inBlock hpkgdisj houter _ hM1 e he'
          exact entryBound_congr p hmemiff hres.2
        · show ls.st.nFees + sumBy p MemEntry.nFee
            (SortForBlock p (packageOf p ls.st c.iterId)) = _
          rw [sumBy_append, hinv.feesEq]
        · show ls.st.vTxFees ++ _ = _
          rw [List.map_append, hinv.vFeesEq]
      · rw [if_pos htpt] at h
        injection h with h'
        subst h'
        exact loopInv_fail p cfg ls hinv c mi' ls.nConsecutiveFailed hmisub
    · rw [if_pos htp] at h
      by_cases hbrk : ls.nConsecutiveFailed + 1 > 1000 ∧
          ls.st.nBlockWeight > cfg.nBlockMaxWeight - 4000
      · rw [if_pos hbrk] at h
        exact LoopCtl.noConfusion h
      · rw [if_neg hbrk] at h
        injection h with h'
        subst h'
        exact loopInv_fail p cfg ls hinv c mi' (ls.nConsecutiveFailed + 1) hmisub

theorem loopStep_cont_inv (p : MemPool) (cfg : AsmOptions) (ls ls' : LoopState)
    (hwf : p.WF) (hinv : LoopInv p cfg ls)
    (h : loopStep p cfg ls = .cont ls') : LoopInv p cfg ls' := by
  unfold loopStep at h
  by_cases hguard : ls.mi = [] ∧ ls.mapModifiedTx = []
  · rw [if_pos hguard] at h
    exact LoopCtl.noConfusion h
  · rw [if_neg hguard] at h
    cases hmi : ls.mi with
    | nil =>
      simp only [hmi] at h
      refine loopBody_cont_inv p cfg ls ls' hwf hinv ?_ h
      intro x rest hx
      rw [hmi] at hx
      exact absurd hx (by simp)
    | cons x rest =>
      simp only [hmi] at h
      by_cases hsk : SkipMapTxEntry x ls.mapModifiedTx ls.st ls.failedTx = true
      · rw [if_pos hsk] at h
        injection h with h'
        subst h'
        refine ⟨hinv.wLe, hinv.sLe, hinv.ibLt, hinv.ibNd, hinv.ibClosed, hinv.ibTopo,
          ?_, hinv.mmB, hinv.feesEq, hinv.vFeesEq⟩
        intro y hy
        exact hinv.miLt y (hmi ▸ List.mem_cons_of_mem _ hy)
      · rw [if_neg hsk] at h
        refine loopBody_cont_inv p cfg ls ls' hwf hinv ?_ h
        intro y rest' hy
        rw [hmi] at hy
        injection hy with hy1 hy2
        subst hy1
        intro hmem
        apply hsk
        unfold SkipMapTxEntry
        simp [hmem]

/-- The facts about the final assembler state that the claims read
off the loop invariant. -/
def StInvProps (p : MemPool) (cfg : AsmOptions) (st : AsmState) : Prop :=
  st.nBlockWeight ≤ cfg.nBlockMaxWeight ∧
  st.nBlockSigOpsCost ≤ MAX_BLOCK_SIGOPS_COST ∧
  TopoOrdered p st.inBlock ∧
  (∀ x ∈ st.inBlock, x < p.n) ∧
  st.nFees = sumBy p MemEntry.nFee st.inBlock ∧
  st.vTxFees = st.inBlock.map (fun x => (p.attr x).nFee)

theorem loopRun_inv (p : MemPool) (cfg : AsmOptions) (hwf : p.WF) :
    ∀ (fuel : Nat) (ls : LoopState), LoopInv p cfg ls →
    StInvProps p cfg (loopRun p cfg fuel ls)
  | 0, ls, hinv =>
    ⟨hinv.wLe, hinv.sLe, hinv.ibTopo, hinv.ibLt, hinv.feesEq, hinv.vFeesEq⟩
  | fuel + 1, ls, hinv => by
    rw [loopRun]
    cases hstep : loopStep p cfg ls with
    | done =>
      exact ⟨hinv.wLe, hinv.sLe, hinv.ibTopo, hinv.ibLt, hinv.feesEq, hinv.vFeesEq⟩
    | cont ls' =>
      exact loopRun_inv p cfg hwf fuel ls'
        (loopStep_cont_inv p cfg ls ls' hwf hinv hstep)

theorem loopInv_init (p : MemPool) (cfg : AsmOptions)
    (h4 : 4000 ≤ cfg.nBlockMaxWeight) :
    LoopInv p cfg ⟨mapTxAncestorScoreOrder p, [], [], 0, resetBlock⟩ := by
  refine ⟨h4, by norm_num [MAX_BLOCK_SIGOPS_COST, resetBlock], ?_, ?_, ?_, ?_, ?_, ?_, ?_, ?_⟩
  · intro x hx
    exact absurd hx (by simp [resetBlock])
  · exact List.nodup_nil
  · intro x hx
    exact absurd hx (by simp [resetBlock])
  · intro i hi j hj
    simp [resetBlock] at hi
  · intro x hx
    have : x ∈ List.range p.n :=
      (List.perm_insertionSort (ancScoreLE p) (List.range p.n)).mem_iff.mp hx
    exact List.mem_range.mp this
  · intro e he
    exact absurd he (by simp)
  · rfl
  · rfl

/-! ### Claim theorems for the assembler -/

/-- C1.  Budget invariant: for every mempool snapshot and every
configuration (the maximum weight being clamped by the `BlockAssembler`
constructor), after the selection loop of `CreateNewBlock` finishes
the accumulated block weight is at most the configured maximum weight
and the accumulated sig-op cost is at most `MAX_BLOCK_SIGOPS_COST`;
every package committed by `AddToBlock` passed the `TestPackage`
budget check beforehand, so no commit pushes either accumulator past
its budget — this is the content of the loop invariant from which the
bounds follow for every fuel. -/
theorem createNewBlock_budget (p : MemPool) (requested : Nat) (getFee : Int → Int)
    (includeWitness : Bool) (fuel : Nat) (hwf : p.WF) :
    (CreateNewBlockSelection p
        ⟨BlockAssemblerMaxWeight requested, getFee, includeWitness⟩ fuel).nBlockWeight ≤
      BlockAssemblerMaxWeight requested ∧
    (CreateNewBlockSelection p
        ⟨BlockAssemblerMaxWeight requested, getFee, includeWitness⟩ fuel).nBlockSigOpsCost ≤
      MAX_BLOCK_SIGOPS_COST := by
  have h4 : 4000 ≤ BlockAssemblerMaxWeight requested := le_max_left _ _
  have hrun := loopRun_inv p ⟨BlockAssemblerMaxWeight requested, getFee, includeWitness⟩
    hwf fuel _ (loopInv_init p _ h4)
  exact ⟨hrun.1, hrun.2.1⟩

/-- C1 witness: the budget bounds hold on the concrete two-entry
pool. -/
theorem createNewBlock_budget_witness :
    MemPool.WF poolEx ∧
    ((CreateNewBlockSelection poolEx
        ⟨BlockAssemblerMaxWeight 4000000, fun _ => 0, false⟩ 10).nBlockWeight ≤
      BlockAssemblerMaxWeight 4000000 ∧
    (CreateNewBlockSelection poolEx
        ⟨BlockAssemblerMaxWeight 4000000, fun _ => 0, false⟩ 10).nBlockSigOpsCost ≤
      MAX_BLOCK_SIGOPS_COST) :=
  ⟨(MemPool.wf_iff poolEx).mpr (by decide),
    createNewBlock_budget poolEx 4000000 (fun _ => 0) false 10
      ((MemPool.wf_iff poolEx).mpr (by decide))⟩

/-- C2.  Topological order: in every template produced by the
selection loop, a transaction appears at a strictly greater position
than each of its in-mempool ancestors that is also in the output;
`SortForBlock`'s ancestor-count sort of each committed package,
together with the package closure over not-yet-included ancestors,
maintains this invariant. -/
theorem createNewBlock_topological (p : MemPool) (cfg : AsmOptions) (fuel : Nat)
    (hwf : p.WF) (h4 : 4000 ≤ cfg.nBlockMaxWeight) :
    TopoOrdered p (CreateNewBlockSelection p cfg fuel).inBlock := by
  have hrun := loopRun_inv p cfg hwf fuel _ (loopInv_init p cfg h4)
  exact hrun.2.2.1

/-- C2 witness: the topological-order property on the concrete
two-entry pool. -/
theorem createNewBlock_topological_witness :
    MemPool.WF poolEx ∧
    4000 ≤ (⟨BlockAssemblerMaxWeight 4000000, fun _ => 0, false⟩ : AsmOptions).nBlockMaxWeight ∧
    TopoOrdered poolEx (CreateNewBlockSelection poolEx
      ⟨BlockAssemblerMaxWeight 4000000, fun _ => 0, false⟩ 10).inBlock :=
  ⟨(MemPool.wf_iff poolEx).mpr (by decide), by decide,
    createNewBlock_topological poolEx _ 10
      ((MemPool.wf_iff poolEx).mpr (by decide)) (by decide)⟩

/-- C8.  Determinism: the selection is a function of the mempool
snapshot, the configuration, and the iteration bound alone — the
embedded loop reads no other state (no randomness, no clock) — so two
runs over unchanged inputs select the same set of transactions. -/
theorem createNewBlock_deterministic (p₁ p₂ : MemPool) (cfg₁ cfg₂ : AsmOptions)
    (fuel₁ fuel₂ : Nat) (hp : p₁ = p₂) (hcfg : cfg₁ = cfg₂) (hfuel : fuel₁ = fuel₂) :
    ∀ x, x ∈ (CreateNewBlockSelection p₁ cfg₁ fuel₁).inBlock ↔
      x ∈ (CreateNewBlockSelection p₂ cfg₂ fuel₂).inBlock := by
  subst hp
  subst hcfg
  subst hfuel
  intro x
  exact Iff.rfl

/-- C8 witness: two identical runs agree on membership of entry 0. -/
theorem createNewBlock_deterministic_witness :
    0 ∈ (CreateNewBlockSelection poolEx
        ⟨BlockAssemblerMaxWeight 4000000, fun _ => 0, false⟩ 10).inBlock ↔
    0 ∈ (CreateNewBlockSelection poolEx
        ⟨BlockAssemblerMaxWeight 4000000, fun _ => 0, false⟩ 10).inBlock :=
  createNewBlock_deterministic poolEx poolEx _ _ 10 10 rfl rfl rfl 0

/-- C10.  `AddToBlock` accumulates the raw individual fee (`GetFee`)
of every committed transaction into `nFees` and into the per-tx fee
vector — not the modified fee used for ordering — so the coinbase
output value equals the block subsidy plus the sum of the raw fees of
the included transactions, and the fee vector lists exactly those raw
fees. -/
theorem coinbase_raw_fees (p : MemPool) (cfg : AsmOptions) (fuel : Nat)
    (subsidy : Int) (hwf : p.WF) (h4 : 4000 ≤ cfg.nBlockMaxWeight) :
    coinbaseOutputValue p cfg fuel subsidy =
      subsidy + sumBy p MemEntry.nFee (CreateNewBlockSelection p cfg fuel).inBlock ∧
    (CreateNewBlockSelection p cfg fuel).vTxFees =
      (CreateNewBlockSelection p cfg fuel).inBlock.map (fun x => (p.attr x).nFee) := by
  have hrun := loopRun_inv p cfg hwf fuel _ (loopInv_init p cfg h4)
  constructor
  · show (CreateNewBlockSelection p cfg fuel).nFees + subsidy = _
    rw [show (CreateNewBlockSelection p cfg fuel).nFees =
      sumBy p MemEntry.nFee (CreateNewBlockSelection p cfg fuel).inBlock from
      hrun.2.2.2.2.1]
    ring
  · exact hrun.2.2.2.2.2

/-- C10 witness: the coinbase accounting on the concrete two-entry
pool. -/
theorem coinbase_raw_fees_witness :
    MemPool.WF poolEx ∧
    (coinbaseOutputValue poolEx
        ⟨BlockAssemblerMaxWeight 4000000, fun _ => 0, false⟩ 10 50 =
      50 + sumBy poolEx MemEntry.nFee (CreateNewBlockSelection poolEx
        ⟨BlockAssemblerMaxWeight 4000000, fun _ => 0, false⟩ 10).inBlock ∧
    (CreateNewBlockSelection poolEx
        ⟨BlockAssemblerMaxWeight 4000000, fun _ => 0, false⟩ 10).vTxFees =
      (CreateNewBlockSelection poolEx
        ⟨BlockAssemblerMaxWeight 4000000, fun _ => 0, false⟩ 10).inBlock.map
        (fun x => (poolEx.attr x).nFee)) :=
  ⟨(MemPool.wf_iff poolEx).mpr (by decide),
    coinbase_raw_fees poolEx _ 10 50 ((MemPool.wf_iff poolEx).mpr (by decide))
      (by decide)⟩

/-- C5.  Fee-rate floor: in any loop state where the `while` guard
holds and the mapTx head is not skipped, if the selected candidate's
ancestor fees are strictly below `blockMinFeeRate.GetFee` of its
ancestor size, the loop returns immediately — the state is unchanged,
so neither this package nor any later one is included (every remaining
candidate has a lower ancestor fee rate); and when the fees are
exactly equal to the floor the package is not rejected by this test:
with the budget and finality tests passing, the very next step commits
it. -/
theorem addPackageTxs_fee_floor (p : MemPool) (cfg : AsmOptions) (ls : LoopState)
    (c : Candidate) (mi' : List Nat)
    (hguard : ¬ (ls.mi = [] ∧ ls.mapModifiedTx = []))
    (hnoskip : ∀ x rest, ls.mi = x :: rest →
      SkipMapTxEntry x ls.mapModifiedTx ls.st ls.failedTx = false)
    (hcc : chooseCandidate p ls = some (c, mi')) :
    (c.packageFees < cfg.getBlockMinFee c.packageSize →
      ∀ fuel, loopRun p cfg fuel ls = ls.st) ∧
    (c.packageFees = cfg.getBlockMinFee c.packageSize →
      TestPackage cfg ls.st c.packageSize c.packageSigOpsCost = true →
      TestPackageTransactions cfg p (packageOf p ls.st c.iterId) = true →
      ∃ ls', loopStep p cfg ls = .cont ls' ∧ c.iterId ∈ ls'.st.inBlock) := by
  have hstep : ∀ ctl, loopBody p cfg ls = ctl → loopStep p cfg ls = ctl := by
    intro ctl hbody
    unfold loopStep
    rw [if_neg hguard]
    cases hmi : ls.mi with
    | nil => exact hbody
    | cons x rest =>
      show (if SkipMapTxEntry x ls.mapModifiedTx ls.st ls.failedTx = true then
          LoopCtl.cont ⟨rest, ls.mapModifiedTx, ls.failedTx, ls.nConsecutiveFailed, ls.st⟩
        else loopBody p cfg ls) = ctl
      rw [if_neg (by rw [hnoskip x rest hmi]; simp)]
      exact hbody
  constructor
  · intro hfl fuel
    have hbody : loopBody p cfg ls = .done := by
      unfold loopBody
      simp only [hcc]
      rw [if_pos hfl]
    have hdone := hstep _ hbody
    cases fuel with
    | zero => rfl
    | succ fuel => simp only [loopRun, hdone]
  · intro heq htp htpt
    have hnl : ¬ c.packageFees < cfg.getBlockMinFee c.packageSize := by
      rw [heq]
      exact lt_irrefl _
    have hbody : loopBody p cfg ls = .cont ⟨mi',
        (UpdatePackagesForAdded p (packageOf p ls.st c.iterId)
          (commitPackage p (SortForBlock p (packageOf p ls.st c.iterId)) ls.st
            ls.mapModifiedTx).2).1,
        ls.failedTx, 0,
        (commitPackage p (SortForBlock p (packageOf p ls.st c.iterId)) ls.st
          ls.mapModifiedTx).1⟩ := by
      unfold loopBody
      simp only [hcc]
      rw [if_neg hnl, if_neg (by rw [htp]; simp), if_neg (by rw [htpt]; simp)]
    refine ⟨_, hstep _ hbody, ?_⟩
    show c.iterId ∈ (commitPackage p (SortForBlock p (packageOf p ls.st c.iterId))
      ls.st ls.mapModifiedTx).1.inBlock
    rw [commitPackage_spec]
    show c.iterId ∈ ls.st.inBlock ++ SortForBlock p (packageOf p ls.st c.iterId)
    refine List.mem_append.mpr (Or.inr ?_)
    refine (List.perm_insertionSort _ _).mem_iff.mpr ?_
    exact (mem_packageOf p ls.st c.iterId c.iterId).mpr (Or.inr rfl)

/-- C5 witness: on the concrete pool, a candidate below a floor of
1000 terminates the loop with the state unchanged, and the same
candidate with fees exactly equal to a floor of 10 is committed by the
next step. -/
theorem addPackageTxs_fee_floor_witness :
    loopRun poolEx ⟨BlockAssemblerMaxWeight 4000000, fun _ => 1000, false⟩ 3
      ⟨[0], [], [], 0, resetBlock⟩ = resetBlock ∧
    (∃ ls', loopStep poolEx ⟨BlockAssemblerMaxWeight 4000000, fun _ => 10, false⟩
        ⟨[0], [], [], 0, resetBlock⟩ = .cont ls' ∧
      (candOfOrig poolEx 0).iterId ∈ ls'.st.inBlock) :=
  ⟨(addPackageTxs_fee_floor poolEx ⟨BlockAssemblerMaxWeight 4000000, fun _ => 1000, false⟩
      ⟨[0], [], [], 0, resetBlock⟩ (candOfOrig poolEx 0) []
      (by simp)
      (by
        intro x rest hx
        injection hx with h1 h2
        subst h1
        subst h2
        decide)
      (by decide)).1 (by decide) 3,
   (addPackageTxs_fee_floor poolEx ⟨BlockAssemblerMaxWeight 4000000, fun _ => 10, false⟩
      ⟨[0], [], [], 0, resetBlock⟩ (candOfOrig poolEx 0) []
      (by simp)
      (by
        intro x rest hx
        injection hx with h1 h2
        subst h1
        subst h2
        decide)
      (by decide)).2 (by decide) (by decide) (by decide)⟩
